import Mathlib

/-!
Verification development for the titan planning and reconciliation engine.

The definitions below are a shallow embedding of the Python sources:
  - src/titan/blueprint.py   (dict_delta, diff, Blueprint, topological_sort, _plan)
  - src/titan/resource_name.py (ResourceName)
  - src/titan/lifecycle.py   (create_resource, update_resource, drop_resource)

Python dicts are modelled as association lists with dict-style key-set
iteration (pyKeys) and first-match lookup (pyGet); Python exceptions are
modelled by Option/Except results.  Attribute values and list items are
abstract types V and I with decidable equality, mirroring the generic,
type-agnostic structural diff.
-/

namespace Titan

/-- Fold that appends an element only when absent.  Used to model the
iteration order of Python dict keys and set insertion: first occurrence
wins, order of first insertion is preserved. -/
def insertAbsent (l : List String) (b : String) : List String :=
  if b ∈ l then l else l ++ [b]

/-- Distinct keys of a Python dict built by inserting the given keys in
order: first occurrence order, no duplicates. -/
def pyKeys (l : List String) : List String :=
  l.foldl insertAbsent []

/-- Python dict lookup on an association list (keys are unique in an
actual dict, so first match is the match). -/
def pyGet {β : Type _} (l : List (String × β)) (k : String) : Option β :=
  match l with
  | [] => none
  | p :: rest => if p.1 = k then some p.2 else pyGet rest k

section DiffEngine

variable {V I : Type}

/-- A manifest value: either an attribute mapping (a Python dict whose
field values have type V) or, for list-serializing kinds, a list of
items of type I.  Item equality abstracts Python dict equality. -/
inductive Value (V I : Type) where
  | attrs : List (String × V) → Value V I
  | items : List I → Value V I
  deriving DecidableEq

/-- Diff actions, as produced by blueprint.diff. -/
inductive Action where
  | add
  | change
  | remove
  deriving DecidableEq, Repr

/-- Payload of a diff operation: the whole old or new value for key-level
add and remove, a single-field sparse mapping for change (the Python dict
with exactly one attr: value entry), or a single list item. -/
inductive Payload (V I : Type) where
  | whole : Value V I → Payload V I
  | field : String → Option V → Payload V I
  | item : I → Payload V I
  deriving DecidableEq

variable [DecidableEq V] [DecidableEq I]

/-- dict_delta from blueprint.py: field-level delta between two attribute
mappings.  Keys removed map to none (Python None), keys in both with
differing values and keys only in the new mapping map to the new value.
The three loops of the source are the three appended blocks. -/
def dict_delta (original new : List (String × V)) : List (String × Option V) :=
  let okeys := pyKeys (original.map Prod.fst)
  let nkeys := pyKeys (new.map Prod.fst)
  ((okeys.filter (fun k => k ∉ nkeys)).map (fun k => (k, (none : Option V))))
  ++ ((okeys.filter (fun k => k ∈ nkeys ∧ pyGet original k ≠ pyGet new k)).map
        (fun k => (k, pyGet new k)))
  ++ ((nkeys.filter (fun k => k ∉ okeys)).map (fun k => (k, pyGet new k)))

/-- Per-key diff operations for the keys common to both manifests, in key
iteration order.  Mapping-typed values produce one change operation per
dict_delta field; list-typed values produce set-style item removes then
adds.  A mapping on one side and a list on the other makes the Python
source raise (dict_delta is applied to a list, or a dict is used for item
membership), modelled as none. -/
def diffCommons (original new : List (String × Value V I)) :
    List String → Option (List (Action × String × Payload V I))
  | [] => some []
  | k :: rest =>
    match pyGet original k, pyGet new k with
    | some (Value.attrs o), some (Value.attrs n) =>
      (diffCommons original new rest).map (fun tail =>
        ((dict_delta o n).map (fun av => (Action.change, k, Payload.field av.1 av.2))) ++ tail)
    | some (Value.items o), some (Value.items n) =>
      (diffCommons original new rest).map (fun tail =>
        ((o.filter (fun it => it ∉ n)).map (fun it => (Action.remove, k, Payload.item it)))
        ++ ((n.filter (fun it => it ∉ o)).map (fun it => (Action.add, k, Payload.item it)))
        ++ tail)
    | _, _ => none

/-- diff from blueprint.py: keys only in the original manifest yield
remove operations, keys only in the new manifest yield add operations,
and common keys yield the per-key operations of diffCommons.  The
generator is modelled as the concatenated list of its yields. -/
def diff (original new : List (String × Value V I)) :
    Option (List (Action × String × Payload V I)) :=
  let okeys := pyKeys (original.map Prod.fst)
  let nkeys := pyKeys (new.map Prod.fst)
  let removes := (okeys.filter (fun k => k ∉ nkeys)).filterMap (fun k =>
    (pyGet original k).map (fun v => (Action.remove, k, Payload.whole v)))
  let adds := (nkeys.filter (fun k => k ∉ okeys)).filterMap (fun k =>
    (pyGet new k).map (fun v => (Action.add, k, Payload.whole v)))
  (diffCommons original new (okeys.filter (fun k => k ∈ nkeys))).map
    (fun commons => removes ++ adds ++ commons)

end DiffEngine

section Sequencer

/-- Pointwise update of an in-degree table, modelling
in_degrees[k] += i on a Python dict of ints. -/
def bumpDeg (d : String → Int) (k : String) (i : Int) : String → Int :=
  fun x => if x = k then d k + i else d x

/-- The in-degree table after the ref loop of topological_sort: every ref
edge (node, ref) increments the in-degree of ref.  The Python table only
has the urns as keys; lookups outside that domain raise KeyError, which
topological_sort guards for explicitly. -/
def initDegrees (refs : List (String × String)) : String → Int :=
  refs.foldl (fun d p => bumpDeg d p.2 1) (fun _ => 0)

/-- The outgoing-edge sets after the ref loop of topological_sort:
outgoing_edges[node].add(ref), a set insertion modelled as
append-if-absent. -/
def initOutgoing (refs : List (String × String)) : String → List String :=
  refs.foldl (fun o p => fun x => if x = p.1 then insertAbsent (o p.1) p.2 else o x)
    (fun _ => [])

/-- State threaded through the neighbor loop of one iteration of the
Kahn while loop: the in-degree table, the FIFO queue, and the
empty_neighbors set collected for outgoing-edge pruning. -/
structure KStep where
  deg : String → Int
  queue : List String
  emptied : List String

/-- One neighbor visit: decrement the in-degree of the neighbor and, when
it reaches zero, enqueue it and record it as an empty neighbor. -/
def stepFold (st : KStep) (b : String) : KStep :=
  let d := bumpDeg st.deg b (-1)
  if d b = 0 then ⟨d, st.queue ++ [b], st.emptied ++ [b]⟩ else ⟨d, st.queue, st.emptied⟩

/-- The while loop of topological_sort (Kahn): dequeue a node, append it
to the output, decrement its neighbors, enqueue neighbors that reach
in-degree zero, and prune the emptied neighbors from the outgoing set of
the dequeued node.  Each node is enqueued at most once (initially when
its in-degree is zero, or at the unique decrement that reaches zero), so
a fuel of one more than the number of distinct nodes bounds the number of
dequeues and the fuel-elaborated recursion agrees with the unbounded
Python loop. -/
def kahnLoop : Nat → (String → Int) → (String → List String) → List String → List String →
    List String
  | 0, _, _, _, ns => ns
  | _ + 1, _, _, [], ns => ns
  | fuel + 1, deg, out, n :: q, ns =>
    let st := (out n).foldl stepFold ⟨deg, q, []⟩
    let out1 : String → List String :=
      fun x => if x = n then (out n).filter (fun b => b ∉ st.emptied) else out x
    kahnLoop fuel st.deg out1 st.queue (ns ++ [n])

/-- The final dict comprehension of topological_sort, mapping each value
of the node list to its index; a later duplicate would overwrite an
earlier one, exactly as dict construction does. -/
def rankFrom (i : Nat) : List String → String → Option Nat
  | [] => fun _ => none
  | a :: rest => fun x =>
    match rankFrom (i + 1) rest x with
    | some j => some j
    | none => if x = a then some i else none

/-- topological_sort from blueprint.py.  The in-degree table is keyed by
the distinct urns, so a ref edge with an endpoint outside the urns makes
the Python source raise KeyError, modelled by the guard returning none.
Otherwise Kahn runs to completion, the output list is reversed, and the
value-to-index dict is returned. -/
def topological_sort (refs : List (String × String)) (urns : List String) :
    Option (String → Option Nat) :=
  let keys := pyKeys urns
  if ∀ p ∈ refs, p.1 ∈ keys ∧ p.2 ∈ keys then
    let deg := initDegrees refs
    let out := initOutgoing refs
    let q0 := keys.filter (fun k => deg k = 0)
    let ns := kahnLoop (keys.length + 1) deg out q0 []
    some (rankFrom 0 ns.reverse)
  else none

end Sequencer

section Plan

variable {V I : Type} [DecidableEq V] [DecidableEq I]

/-- A manifest as built by generate_manifest: identifier keyed entries
plus the two reserved side channels _refs (dependency edges, from
dependent to dependency) and _urns (identifier strings present). -/
structure Manifest (V I : Type) where
  entries : List (String × Value V I)
  refs : List (String × String)
  urns : List String

/-- Python truthiness of a diff payload, deciding the `if data:` filter of
_plan.  An empty attribute mapping or empty item list is falsy; a
single-field change mapping is always truthy; truthiness of a bare list
item is supplied by the itemTruthy parameter. -/
def Payload.isEmpty (itemTruthy : I → Bool) : Payload V I → Bool
  | Payload.whole (Value.attrs f) => f.isEmpty
  | Payload.whole (Value.items l) => l.isEmpty
  | Payload.field _ _ => false
  | Payload.item it => !itemTruthy it

/-- _plan from blueprint.py.  The manifest is split into node list
(_urns plus remote keys) and edge list for the sequencer, the reserved
keys are dropped, the diff operations are narrowed by the per-kind
fetchable_fields (abstracted, together with the URN.from_str and
Resource.classes lookup it is applied through, into the fetch parameter,
keyed by the urn string), empty narrowed payloads are dropped, and the
result is sorted by topological rank.  sorted with the rank lookup as key
raises KeyError when some retained urn has no rank, modelled by the mapM
guard; Python sorted is a stable comparison sort, modelled by insertion
sort. -/
def _plan (itemTruthy : I → Bool) (fetch : String → Payload V I → Payload V I)
    (remote : List (String × Value V I)) (m : Manifest V I) :
    Option (List (Action × String × Payload V I)) :=
  let nodes := m.urns ++ pyKeys (remote.map Prod.fst)
  match topological_sort m.refs nodes with
  | none => none
  | some rank =>
    match diff remote m.entries with
    | none => none
    | some ops =>
      let changes := ops.filterMap (fun c =>
        let nd := fetch c.2.1 c.2.2
        if nd.isEmpty itemTruthy then none else some (c.1, c.2.1, nd))
      match changes.mapM (fun c => rank c.2.1) with
      | none => none
      | some _ =>
        some (changes.insertionSort (fun c d => (rank c.2.1).getD 0 ≤ (rank d.2.1).getD 0))

end Plan

section BlueprintOps

/-- Scope kinds of the scoped resource base classes
(OrganizationScoped, AccountScoped, DatabaseScoped, SchemaScoped).
Modelled from the spec: the resource base classes live in
src/titan/resources/base.py, which is not part of the sources; a scoped
resource carries one of these four ancestry kinds. -/
inductive ScopeKind where
  | organization
  | account
  | database
  | schema
  deriving DecidableEq, Repr

/-- A staged resource as seen by the scope resolver.  Modelled from the
spec: has_scope() of the missing resource base module reports whether the
resource declared its ancestry explicitly, modelled as scopeValue being
some value; a resource with scopeKind none is not an instance of any of
the scoped base classes. -/
structure ScopedResource where
  scopeKind : Option ScopeKind
  scopeValue : Option String
  deriving DecidableEq, Repr

/-- The four context attributes of a Blueprint.  Python None is modelled
as none; after Blueprint.init every field holds some string. -/
structure BlueprintCtx where
  organization : Option String
  account : Option String
  database : Option String
  schema : Option String
  deriving DecidableEq, Repr

/-- Python `x or ""` on an optional string argument. -/
def pyOrEmpty (x : Option String) : String :=
  match x with
  | none => ""
  | some s => if s = "" then "" else s

/-- The context-attribute part of Blueprint.__init__: each of
organization, account, database, schema is stored as the given argument
or the empty string. -/
def Blueprint.init (organization account database schema : Option String) : BlueprintCtx :=
  ⟨some (pyOrEmpty organization), some (pyOrEmpty account),
   some (pyOrEmpty database), some (pyOrEmpty schema)⟩

/-- Blueprint._finalize_scope: a scoped resource without a declared scope
receives the blueprint-level context value; for database and schema
scope the source raises only when the stored context value is Python
None (never the case after Blueprint.init, which stores a string). -/
def _finalize_scope (bp : BlueprintCtx) (r : ScopedResource) :
    Except String ScopedResource :=
  match r.scopeKind with
  | none => Except.ok r
  | some sk =>
    if r.scopeValue.isSome then Except.ok r
    else
      match sk with
      | ScopeKind.organization => Except.ok { r with scopeValue := bp.organization }
      | ScopeKind.account => Except.ok { r with scopeValue := bp.account }
      | ScopeKind.database =>
        match bp.database with
        | none => Except.error "Orphaned resource found"
        | some d => Except.ok { r with scopeValue := some d }
      | ScopeKind.schema =>
        match bp.schema with
        | none => Except.error "Orphaned resource found"
        | some s => Except.ok { r with scopeValue := some s }

/-- A resource as seen by Blueprint._add: whether it is an Account
resource, its name, and its dependency references. -/
inductive RRes where
  | node : Bool → String → List RRes → RRes

/-- Whether an RRes is an Account resource. -/
def RRes.isAccount : RRes → Bool
  | RRes.node b _ _ => b

/-- Name of an RRes. -/
def RRes.name : RRes → String
  | RRes.node _ nm _ => nm

/-- Dependency references of an RRes. -/
def RRes.refs : RRes → List RRes
  | RRes.node _ _ rs => rs

/-- The staging state of a Blueprint touched by _add: the account name
and the staged resource list. -/
structure StageState where
  account : String
  staged : List RRes

mutual

/-- Blueprint._add: an Account resource sets the blueprint account or
raises when one is already set; the resource is appended to the staged
list unconditionally, then its refs are staged depth-first. -/
def _add (bp : StageState) (r : RRes) : Except String StageState :=
  match r with
  | RRes.node isAcc nm rs =>
    let step : Except String StageState :=
      if isAcc then
        if bp.account = "" then Except.ok { bp with account := nm }
        else Except.error "Account already set"
      else Except.ok bp
    match step with
    | Except.error e => Except.error e
    | Except.ok bp1 => _addList { bp1 with staged := bp1.staged ++ [RRes.node isAcc nm rs] } rs

/-- The for loop over resource.refs inside Blueprint._add. -/
def _addList (bp : StageState) (rs : List RRes) : Except String StageState :=
  match rs with
  | [] => Except.ok bp
  | r :: rest =>
    match _add bp r with
    | Except.error e => Except.error e
    | Except.ok bp1 => _addList bp1 rest

end

/-- URN.from_str acceptance.  Modelled from the spec: identifiers parse
from a single canonical string form beginning with the urn tag and
parsing fails with MalformedIdentifierError on any other string (the
identifier module src/titan/identifiers.py is not part of the sources);
in particular the reserved manifest keys _refs and _urns do not parse. -/
def parsesAsURN (s : String) : Bool :=
  "urn:".data.isPrefixOf s.data

/-- The key loop of Blueprint.destroy over one list of manifest keys:
each key is parsed and a delete lifecycle call is issued for it; a key
that fails to parse aborts the loop with the parse error, leaving the
earlier delete calls already issued. -/
def destroyKeys : List String → List String × Option String
  | [] => ([], none)
  | k :: rest =>
    if parsesAsURN k then
      let r := destroyKeys rest
      (k :: r.1, r.2)
    else ([], some "MalformedIdentifierError")

/-- Blueprint.destroy: iterates every key of the manifest dict in
insertion order, which is the entry keys followed by the reserved keys
_refs and _urns, issuing unconditional delete lifecycle calls.  Returns
the identifiers whose delete calls were issued, in order, and the error
raised, if any. -/
def destroy {V I : Type} (m : Manifest V I) : List String × Option String :=
  destroyKeys (pyKeys (m.entries.map Prod.fst) ++ ["_refs", "_urns"])

end BlueprintOps

section ResourceNameModel

/-- Characters allowed to start an unquoted identifier part.
Modelled from the spec: the identifier grammar
(src/titan/parse_primitives.py, FullyQualifiedIdentifier) is consumed as
a black-box parser; a standard unquoted identifier part starts with a
letter or underscore. -/
def identStartChar (c : Char) : Bool :=
  (decide ('A' ≤ c) && decide (c ≤ 'Z')) || (decide ('a' ≤ c) && decide (c ≤ 'z')) || c = '_'

/-- Characters allowed inside an unquoted identifier part. -/
def identChar (c : Char) : Bool :=
  identStartChar c || (decide ('0' ≤ c) && decide (c ≤ '9')) || c = '$'

/-- Whether a character list is one unquoted identifier part. -/
def isIdentPart : List Char → Bool
  | [] => false
  | c :: rest => identStartChar c && rest.all identChar

/-- Split a character list at dots, modelling str.split(".") of the
parsed text: splitting yields at least one (possibly empty) part. -/
def splitDots : List Char → List (List Char)
  | [] => [[]]
  | c :: rest =>
    match splitDots rest with
    | [] => [[]]
    | part :: parts => if c = '.' then [] :: part :: parts else (c :: part) :: parts

/-- FullyQualifiedIdentifier.parse_string acceptance.  Modelled from the
spec: a fully qualified identifier is a dot-separated path of identifier
parts; anything else fails to parse. -/
def parsesAsFQIdentifier (s : String) : Bool :=
  (splitDots s.data).all isIdentPart

/-- Upper-casing of one character, as str.upper acts on the ASCII names
compared here. -/
def asciiUpper (c : Char) : Char :=
  if 'a' ≤ c ∧ c ≤ 'z' then Char.ofNat (c.toNat - 32) else c

/-- str.upper on a string made of the characters above. -/
def strUpper (s : String) : String :=
  String.mk (s.data.map asciiUpper)

/-- ResourceName from resource_name.py: the stored literal name and the
quoted flag. -/
structure ResourceName where
  _name : String
  _quoted : Bool
  deriving DecidableEq, Repr

/-- ResourceName construction from a string: a string wrapped in double
quotes stores its inner text (the first and last character stripped) as
quoted; otherwise the string is stored as is and is quoted exactly when
the identifier grammar rejects it. -/
def ResourceName.fromString (name : String) : ResourceName :=
  if "\"".data.isPrefixOf name.data && "\"".data.isSuffixOf name.data then
    ⟨String.mk ((name.data.drop 1).dropLast), true⟩
  else
    ⟨name, !parsesAsFQIdentifier name⟩

/-- ResourceName.__eq__ against another ResourceName: quoted names
compare literally, unquoted names compare upper-cased, and a mixed
comparison compares the quoted literal against the upper-cased unquoted
value. -/
def ResourceName.eq (a b : ResourceName) : Bool :=
  if a._quoted && b._quoted then a._name == b._name
  else if !a._quoted && !b._quoted then strUpper a._name == strUpper b._name
  else if a._quoted && !b._quoted then a._name == strUpper b._name
  else strUpper a._name == b._name

end ResourceNameModel

section Lifecycle

/-- tidy_sql from the builder module.  Modelled from the spec: the DDL
renderer joins the statement parts into the external SQL text (the
builder module src/titan/builder.py is not part of the sources). -/
def tidy_sql (parts : List String) : String :=
  " ".intercalate (parts.filter (fun p => p ≠ ""))

/-- A Python module attribute as relevant to lifecycle dispatch: a
handler function from resource type and fqn to DDL text, a plain string,
or some other module member (an import, the dispatchers themselves, the
priv map); calling a non-function raises. -/
inductive PyAttr where
  | func : (String → String → String) → PyAttr
  | strVal : String → PyAttr
  | otherAttr : PyAttr

/-- Python call of a module attribute with urn-derived arguments: only a
function attribute returns; calling a string raises TypeError, and the
remaining module members are not lifecycle handlers (calling one never
yields DDL; the dispatchers would recurse forever). -/
def callAttr (a : PyAttr) (rt fqn : String) : Except String String :=
  match a with
  | PyAttr.func f => Except.ok (f rt fqn)
  | PyAttr.strVal _ => Except.error "TypeError: str object is not callable"
  | PyAttr.otherAttr => Except.error "not a lifecycle handler"

/-- create__default from lifecycle.py. -/
def create__default (rt fqn : String) : String :=
  tidy_sql ["CREATE", rt, fqn]

/-- update__default from lifecycle.py. -/
def update__default (rt fqn : String) : String :=
  tidy_sql ["ALTER", rt, fqn]

/-- drop__default from lifecycle.py. -/
def drop__default (rt fqn : String) : String :=
  tidy_sql ["DROP", rt, fqn]

/-- getattr on the lifecycle module: lifecycle.py defines no
kind-specific create_/update_/drop_ handlers, only the three defaults,
the three dispatchers, and module members that are not handler functions
(imports, the module self-reference, the priv map and its helper). -/
def getattrLifecycle (name : String) : Option PyAttr :=
  if name = "create__default" then some (PyAttr.func create__default)
  else if name = "update__default" then some (PyAttr.func update__default)
  else if name = "drop__default" then some (PyAttr.func drop__default)
  else if name ∈ ["create_resource", "update_resource", "drop_resource",
      "sys", "lifecycle", "tidy_sql", "URN", "GlobalPriv", "DatabasePriv", "SchemaPriv",
      "CREATE_RESOURCE_PRIV_MAP", "privs_for_create"] then some PyAttr.otherAttr
  else none

/-- create_resource from lifecycle.py: the getattr fallback is the
function create__default itself. -/
def create_resource (rt fqn : String) : Except String String :=
  callAttr ((getattrLifecycle ("create_" ++ rt)).getD (PyAttr.func create__default)) rt fqn

/-- update_resource from lifecycle.py: the getattr fallback is the
string "update__default", not the function. -/
def update_resource (rt fqn : String) : Except String String :=
  callAttr ((getattrLifecycle ("update_" ++ rt)).getD (PyAttr.strVal "update__default")) rt fqn

/-- drop_resource from lifecycle.py: the getattr fallback is the string
"drop__default", not the function. -/
def drop_resource (rt fqn : String) : Except String String :=
  callAttr ((getattrLifecycle ("drop_" ++ rt)).getD (PyAttr.strVal "drop__default")) rt fqn

end Lifecycle

/-- The direct dependency-edge relation of a ref list: edgeRel refs x y
holds when (x, y) is an edge, x the dependent and y the dependency. -/
def edgeRel (refs : List (String × String)) (x y : String) : Prop :=
  (x, y) ∈ refs

/-- An edge list admitting a reverse topological numbering is
well-founded as a relation; for a finite edge list this is acyclicity. -/
theorem wf_of_numbering (refs : List (String × String)) (f : String → Nat)
    (h : ∀ p ∈ refs, f p.1 < f p.2) : WellFounded (edgeRel refs) :=
  Subrelation.wf (fun hxy => h _ hxy) (InvImage.wf f Nat.lt_wfRel.wf)

/-- Membership in an append-if-absent insertion. -/
theorem mem_insertAbsent {A : List String} {b x : String} :
    x ∈ insertAbsent A b ↔ x ∈ A ∨ x = b := by
  unfold insertAbsent
  by_cases h : b ∈ A
  · simp only [if_pos h]
    exact ⟨fun hx => Or.inl hx, fun hx => hx.elim id (fun e => e ▸ h)⟩
  · simp [if_neg h]

/-- Append-if-absent preserves the no-duplicates invariant. -/
theorem nodup_insertAbsent {A : List String} {b : String} (h : A.Nodup) :
    (insertAbsent A b).Nodup := by
  unfold insertAbsent
  by_cases hb : b ∈ A
  · simpa [if_pos hb] using h
  · simp only [if_neg hb]
    exact List.nodup_append.mpr ⟨h, List.nodup_singleton b,
      fun a ha hb2 => hb ((List.mem_singleton.mp hb2) ▸ ha)⟩

/-- Membership after folding append-if-absent insertions. -/
theorem mem_foldl_insertAbsent (l : List String) :
    ∀ (A : List String) (x : String), x ∈ l.foldl insertAbsent A ↔ x ∈ A ∨ x ∈ l := by
  induction l with
  | nil => simp
  | cons b rest ih =>
    intro A x
    rw [List.foldl_cons, ih, mem_insertAbsent, List.mem_cons]
    tauto

/-- Folding append-if-absent insertions preserves no-duplicates. -/
theorem nodup_foldl_insertAbsent (l : List String) :
    ∀ A : List String, A.Nodup → (l.foldl insertAbsent A).Nodup := by
  induction l with
  | nil => exact fun A h => h
  | cons b rest ih => exact fun A h => ih _ (nodup_insertAbsent h)

/-- The distinct dict keys are exactly the listed keys. -/
theorem mem_pyKeys {l : List String} {x : String} : x ∈ pyKeys l ↔ x ∈ l := by
  unfold pyKeys
  rw [mem_foldl_insertAbsent]
  simp

/-- The distinct dict keys carry no duplicates. -/
theorem pyKeys_nodup (l : List String) : (pyKeys l).Nodup :=
  nodup_foldl_insertAbsent l [] (by simp)

/-- Dict lookup fails exactly on the keys that are absent. -/
theorem pyGet_eq_none {β : Type _} {l : List (String × β)} {k : String} :
    pyGet l k = none ↔ k ∉ l.map Prod.fst := by
  induction l with
  | nil => simp [pyGet]
  | cons p rest ih =>
    by_cases h : p.1 = k
    · simp [pyGet, h]
    · simp only [pyGet, if_neg h, ih, List.map_cons, List.mem_cons]
      constructor
      · intro hk hor
        rcases hor with e | hm
        · exact h e.symm
        · exact hk hm
      · intro hk hm
        exact hk (Or.inr hm)

/-- Dict lookup on a present key succeeds. -/
theorem pyGet_isSome {β : Type _} {l : List (String × β)} {k : String} :
    (pyGet l k).isSome = true ↔ k ∈ l.map Prod.fst := by
  induction l with
  | nil => simp [pyGet]
  | cons p rest ih =>
    by_cases h : p.1 = k
    · simp [pyGet, h, List.map_cons, List.mem_cons]
    · simp only [pyGet, if_neg h, ih, List.map_cons, List.mem_cons]
      constructor
      · exact fun hm => Or.inr hm
      · rintro (e | hm)
        · exact absurd e.symm h
        · exact hm

/-- A successful dict lookup returns a listed pair. -/
theorem pyGet_mem {β : Type _} {l : List (String × β)} {k : String} {v : β}
    (h : pyGet l k = some v) : (k, v) ∈ l := by
  induction l with
  | nil => simp [pyGet] at h
  | cons p rest ih =>
    by_cases hk : p.1 = k
    · rw [show pyGet (p :: rest) k = if p.1 = k then some p.2 else pyGet rest k from rfl,
        if_pos hk] at h
      obtain rfl := Option.some.inj h
      subst hk
      cases p
      exact List.mem_cons_self _ _
    · rw [show pyGet (p :: rest) k = if p.1 = k then some p.2 else pyGet rest k from rfl,
        if_neg hk] at h
      exact List.mem_cons_of_mem p (ih h)

section DictDeltaLemmas

variable {V I : Type} [DecidableEq V] [DecidableEq I]

/-- Keys of a list of key-indexed pairs. -/
theorem map_fst_map_pair {β : Type _} (L : List String) (f : String → β) :
    (L.map (fun k => (k, f k))).map Prod.fst = L := by
  induction L with
  | nil => rfl
  | cons a t ih => simp [ih]

/-- dict_delta written as its three concatenated blocks. -/
theorem dict_delta_split (o n : List (String × V)) :
    dict_delta o n =
      ((pyKeys (o.map Prod.fst)).filter (fun k => k ∉ pyKeys (n.map Prod.fst))).map
          (fun k => (k, (none : Option V)))
      ++ ((pyKeys (o.map Prod.fst)).filter
            (fun k => k ∈ pyKeys (n.map Prod.fst) ∧ pyGet o k ≠ pyGet n k)).map
          (fun k => (k, pyGet n k))
      ++ ((pyKeys (n.map Prod.fst)).filter (fun k => k ∉ pyKeys (o.map Prod.fst))).map
          (fun k => (k, pyGet n k)) := rfl

/-- Semantic characterization of dict_delta: the delta holds exactly the
fields whose lookups differ between the two mappings, each mapped to the
new lookup (none for a removed field). -/
theorem mem_dict_delta {o n : List (String × V)} {a : String} {w : Option V} :
    (a, w) ∈ dict_delta o n ↔ pyGet o a ≠ pyGet n a ∧ w = pyGet n a := by
  rw [dict_delta_split]
  constructor
  · intro hmem
    rcases List.mem_append.mp hmem with h12 | h3
    · rcases List.mem_append.mp h12 with h1 | h2
      · obtain ⟨k, hk, he⟩ := List.mem_map.mp h1
        obtain ⟨hk1, hk2⟩ := List.mem_filter.mp hk
        injection he with e1 e2
        subst e1
        subst e2
        have hno : pyGet n k = none :=
          pyGet_eq_none.mpr (fun hm => (of_decide_eq_true hk2) (mem_pyKeys.mpr hm))
        refine ⟨fun h => ?_, hno.symm⟩
        exact (pyGet_eq_none.mp (h.trans hno)) (mem_pyKeys.mp hk1)
      · obtain ⟨k, hk, he⟩ := List.mem_map.mp h2
        obtain ⟨hk1, hk2⟩ := List.mem_filter.mp hk
        injection he with e1 e2
        subst e1
        subst e2
        exact ⟨(of_decide_eq_true hk2).2, rfl⟩
    · obtain ⟨k, hk, he⟩ := List.mem_map.mp h3
      obtain ⟨hk1, hk2⟩ := List.mem_filter.mp hk
      injection he with e1 e2
      subst e1
      subst e2
      have hoo : pyGet o k = none :=
        pyGet_eq_none.mpr (fun hm => (of_decide_eq_true hk2) (mem_pyKeys.mpr hm))
      refine ⟨fun h => ?_, rfl⟩
      exact (pyGet_eq_none.mp (hoo.symm.trans h).symm) (mem_pyKeys.mp hk1)
  · rintro ⟨hne, rfl⟩
    rcases ho : pyGet o a with _ | ov
    · rcases hn : pyGet n a with _ | nv
      · exact absurd (ho.trans hn.symm) hne
      · refine List.mem_append.mpr (Or.inr (List.mem_map.mpr ⟨a, List.mem_filter.mpr
          ⟨mem_pyKeys.mpr (pyGet_isSome.mp (by rw [hn]; rfl)),
           decide_eq_true (fun hm => (pyGet_eq_none.mp ho) (mem_pyKeys.mp hm))⟩, ?_⟩))
        rw [hn]
    · rcases hn : pyGet n a with _ | nv
      · refine List.mem_append.mpr (Or.inl (List.mem_append.mpr (Or.inl
          (List.mem_map.mpr ⟨a, List.mem_filter.mpr
            ⟨mem_pyKeys.mpr (pyGet_isSome.mp (by rw [ho]; rfl)),
             decide_eq_true (fun hm => (pyGet_eq_none.mp hn) (mem_pyKeys.mp hm))⟩, rfl⟩))))
      · refine List.mem_append.mpr (Or.inl (List.mem_append.mpr (Or.inr
          (List.mem_map.mpr ⟨a, List.mem_filter.mpr
            ⟨mem_pyKeys.mpr (pyGet_isSome.mp (by rw [ho]; rfl)),
             decide_eq_true ⟨mem_pyKeys.mpr (pyGet_isSome.mp (by rw [hn]; rfl)), hne⟩⟩, ?_⟩))))
        rw [hn]

/-- The key list of dict_delta as three concatenated filters. -/
theorem dict_delta_keys (o n : List (String × V)) :
    (dict_delta o n).map Prod.fst =
      (pyKeys (o.map Prod.fst)).filter (fun k => k ∉ pyKeys (n.map Prod.fst))
      ++ (pyKeys (o.map Prod.fst)).filter
          (fun k => k ∈ pyKeys (n.map Prod.fst) ∧ pyGet o k ≠ pyGet n k)
      ++ (pyKeys (n.map Prod.fst)).filter (fun k => k ∉ pyKeys (o.map Prod.fst)) := by
  rw [dict_delta_split]
  simp only [List.map_append, map_fst_map_pair]

/-- The fields reported by dict_delta are pairwise distinct. -/
theorem dict_delta_keys_nodup (o n : List (String × V)) :
    ((dict_delta o n).map Prod.fst).Nodup := by
  rw [dict_delta_keys]
  rw [List.nodup_append, List.nodup_append]
  refine ⟨⟨(pyKeys_nodup _).filter _, (pyKeys_nodup _).filter _, ?_⟩,
    (pyKeys_nodup _).filter _, ?_⟩
  · intro a ha hb
    have h1 := of_decide_eq_true (List.mem_filter.mp ha).2
    have h2 := of_decide_eq_true (List.mem_filter.mp hb).2
    exact h1 h2.1
  · intro a ha hb
    have hb2 := of_decide_eq_true (List.mem_filter.mp hb).2
    rcases List.mem_append.mp ha with h1 | h2
    · exact hb2 (List.mem_filter.mp h1).1
    · exact hb2 (List.mem_filter.mp h2).1

/-- dict_delta reports exactly one entry per differing field: its length
is the number of keys of either mapping at which the lookups differ. -/
theorem dict_delta_length (o n : List (String × V)) :
    (dict_delta o n).length
      = ((pyKeys (o.map Prod.fst ++ n.map Prod.fst)).filter
          (fun a => pyGet o a ≠ pyGet n a)).length := by
  have hD := dict_delta_keys_nodup o n
  have hR : ((pyKeys (o.map Prod.fst ++ n.map Prod.fst)).filter
      (fun a => pyGet o a ≠ pyGet n a)).Nodup := (pyKeys_nodup _).filter _
  have hmem : ∀ a, a ∈ (dict_delta o n).map Prod.fst ↔
      a ∈ (pyKeys (o.map Prod.fst ++ n.map Prod.fst)).filter
        (fun a => pyGet o a ≠ pyGet n a) := by
    intro a
    rw [List.mem_filter, mem_pyKeys, List.mem_append]
    constructor
    · intro hm
      obtain ⟨x, hx, he⟩ := List.mem_map.mp hm
      subst he
      have hx2 : (x.1, x.2) ∈ dict_delta o n := by rw [Prod.mk.eta]; exact hx
      obtain ⟨hne, _⟩ := mem_dict_delta.mp hx2
      refine ⟨?_, decide_eq_true hne⟩
      rcases ho : pyGet o x.1 with _ | ov
      · rcases hn : pyGet n x.1 with _ | nv
        · exact absurd (ho.trans hn.symm) hne
        · exact Or.inr (pyGet_isSome.mp (by rw [hn]; rfl))
      · exact Or.inl (pyGet_isSome.mp (by rw [ho]; rfl))
    · rintro ⟨_, hne⟩
      exact List.mem_map.mpr ⟨(a, pyGet n a),
        mem_dict_delta.mpr ⟨of_decide_eq_true hne, rfl⟩, rfl⟩
  have hperm := (List.perm_ext_iff_of_nodup hD hR).mpr hmem
  calc (dict_delta o n).length
      = ((dict_delta o n).map Prod.fst).length := (List.length_map _ _).symm
    _ = _ := hperm.length_eq

end DictDeltaLemmas

section DiffChangeLemmas

variable {V I : Type} [DecidableEq V] [DecidableEq I]

/-- The change operations that diffCommons emits at a mapping-valued key
are exactly the dict_delta entries of that key, emitted once when the key
is among the processed common keys. -/
theorem diffCommons_filter_change
    (original new : List (String × Value V I)) (k : String) (o n : List (String × V))
    (ho : pyGet original k = some (Value.attrs o))
    (hn : pyGet new k = some (Value.attrs n)) :
    ∀ (ks : List String) (cops : List (Action × String × Payload V I)),
      ks.Nodup → diffCommons original new ks = some cops →
      cops.filter (fun c => c.1 == Action.change && c.2.1 == k)
        = if k ∈ ks then
            (dict_delta o n).map (fun av => (Action.change, k, Payload.field av.1 av.2))
          else [] := by
  intro ks
  induction ks with
  | nil =>
    intro cops _ hc
    simp only [diffCommons] at hc
    obtain rfl := Option.some.inj hc
    simp
  | cons k1 rest ih =>
    intro cops hnd hc
    have hk1rest : k1 ∉ rest := (List.nodup_cons.mp hnd).1
    have hrest : rest.Nodup := (List.nodup_cons.mp hnd).2
    simp only [diffCommons] at hc
    split at hc
    · rename_i o1 n1 heq1 heq2
      obtain ⟨tail, htail, rfl⟩ := Option.map_eq_some'.mp hc
      rw [List.filter_append]
      by_cases hk1 : k1 = k
      · subst hk1
        rw [ho] at heq1
        obtain rfl := Value.attrs.inj (Option.some.inj heq1)
        rw [hn] at heq2
        obtain rfl := Value.attrs.inj (Option.some.inj heq2)
        have hblock : ((dict_delta o n).map
            (fun av => (Action.change, k1, (Payload.field av.1 av.2 : Payload V I)))).filter
              (fun c => c.1 == Action.change && c.2.1 == k1)
            = (dict_delta o n).map
              (fun av => (Action.change, k1, (Payload.field av.1 av.2 : Payload V I))) := by
          refine List.filter_eq_self.mpr ?_
          intro c hcm
          obtain ⟨av, _, rfl⟩ := List.mem_map.mp hcm
          simp
        have htn : tail.filter (fun c => c.1 == Action.change && c.2.1 == k1) = [] := by
          have := ih tail hrest htail
          rwa [if_neg hk1rest] at this
        rw [hblock, htn, List.append_nil, if_pos (List.mem_cons_self _ _)]
      · have hblock : ((dict_delta o1 n1).map
            (fun av => (Action.change, k1, (Payload.field av.1 av.2 : Payload V I)))).filter
              (fun c => c.1 == Action.change && c.2.1 == k) = [] := by
          refine List.filter_eq_nil_iff.mpr ?_
          intro c hcm
          obtain ⟨av, _, rfl⟩ := List.mem_map.mp hcm
          simp [hk1]
        rw [hblock, List.nil_append, ih tail hrest htail]
        by_cases hkr : k ∈ rest
        · rw [if_pos hkr, if_pos (List.mem_cons_of_mem _ hkr)]
        · rw [if_neg hkr, if_neg (fun hm => (List.mem_cons.mp hm).elim
            (fun e => hk1 e.symm) hkr)]
    · rename_i o1 n1 heq1 heq2
      obtain ⟨tail, htail, rfl⟩ := Option.map_eq_some'.mp hc
      have hk1 : k1 ≠ k := by
        intro e
        subst e
        rw [ho] at heq1
        cases Option.some.inj heq1
      rw [List.filter_append, List.filter_append]
      have hb1 : ((o1.filter (fun it => it ∉ n1)).map
          (fun it => (Action.remove, k1, Payload.item (V := V) it))).filter
            (fun c => c.1 == Action.change && c.2.1 == k) = [] := by
        refine List.filter_eq_nil_iff.mpr ?_
        intro c hcm
        obtain ⟨it, _, rfl⟩ := List.mem_map.mp hcm
        simp
      have hb2 : ((n1.filter (fun it => it ∉ o1)).map
          (fun it => (Action.add, k1, Payload.item (V := V) it))).filter
            (fun c => c.1 == Action.change && c.2.1 == k) = [] := by
        refine List.filter_eq_nil_iff.mpr ?_
        intro c hcm
        obtain ⟨it, _, rfl⟩ := List.mem_map.mp hcm
        simp
      rw [hb1, hb2, List.nil_append, List.nil_append, ih tail hrest htail]
      by_cases hkr : k ∈ rest
      · rw [if_pos hkr, if_pos (List.mem_cons_of_mem _ hkr)]
      · rw [if_neg hkr, if_neg (fun hm => (List.mem_cons.mp hm).elim
          (fun e => hk1 e.symm) hkr)]
    · exact absurd hc (by simp)

end DiffChangeLemmas

/-- C4 (status confirmed): for a key held by both manifests with
mapping-typed values, the change operations diff emits at that key are
exactly one per differing field, each carrying only that field, with
value none for a removed field and the new value for a changed or newly
present field; their number equals the number of differing fields. -/
theorem C4_diff_one_change_per_field {V I : Type} [DecidableEq V] [DecidableEq I]
    (original new : List (String × Value V I)) (k : String) (o n : List (String × V))
    (ops : List (Action × String × Payload V I))
    (ho : pyGet original k = some (Value.attrs o))
    (hn : pyGet new k = some (Value.attrs n))
    (hops : diff original new = some ops) :
    ops.filter (fun c => c.1 == Action.change && c.2.1 == k)
      = (dict_delta o n).map (fun av => (Action.change, k, Payload.field av.1 av.2))
    ∧ (∀ a w, (a, w) ∈ dict_delta o n ↔ pyGet o a ≠ pyGet n a ∧ w = pyGet n a)
    ∧ ((dict_delta o n).map Prod.fst).Nodup
    ∧ (ops.filter (fun c => c.1 == Action.change && c.2.1 == k)).length
        = ((pyKeys (o.map Prod.fst ++ n.map Prod.fst)).filter
            (fun a => pyGet o a ≠ pyGet n a)).length := by
  simp only [diff] at hops
  obtain ⟨commons, hcommons, rfl⟩ := Option.map_eq_some'.mp hops
  have hkmem : k ∈ (pyKeys (original.map Prod.fst)).filter
      (fun k => k ∈ pyKeys (new.map Prod.fst)) := by
    refine List.mem_filter.mpr ⟨mem_pyKeys.mpr (pyGet_isSome.mp (by rw [ho]; rfl)),
      decide_eq_true (mem_pyKeys.mpr (pyGet_isSome.mp (by rw [hn]; rfl)))⟩
  have hmain : (((pyKeys (original.map Prod.fst)).filter
        (fun k => k ∉ pyKeys (new.map Prod.fst))).filterMap (fun k =>
          (pyGet original k).map (fun v => (Action.remove, k, Payload.whole v)))
      ++ ((pyKeys (new.map Prod.fst)).filter
        (fun k => k ∉ pyKeys (original.map Prod.fst))).filterMap (fun k =>
          (pyGet new k).map (fun v => (Action.add, k, Payload.whole v)))
      ++ commons).filter (fun c => c.1 == Action.change && c.2.1 == k)
      = (dict_delta o n).map (fun av => (Action.change, k, Payload.field av.1 av.2)) := by
    rw [List.filter_append, List.filter_append]
    have hr : (((pyKeys (original.map Prod.fst)).filter
        (fun k => k ∉ pyKeys (new.map Prod.fst))).filterMap (fun k =>
          (pyGet original k).map (fun v =>
            (Action.remove, k, Payload.whole (I := I) v)))).filter
          (fun c => c.1 == Action.change && c.2.1 == k) = [] := by
      refine List.filter_eq_nil_iff.mpr ?_
      intro c hcm
      obtain ⟨k2, _, he⟩ := List.mem_filterMap.mp hcm
      obtain ⟨v, _, rfl⟩ := Option.map_eq_some'.mp he
      simp
    have ha : (((pyKeys (new.map Prod.fst)).filter
        (fun k => k ∉ pyKeys (original.map Prod.fst))).filterMap (fun k =>
          (pyGet new k).map (fun v =>
            (Action.add, k, Payload.whole (I := I) v)))).filter
          (fun c => c.1 == Action.change && c.2.1 == k) = [] := by
      refine List.filter_eq_nil_iff.mpr ?_
      intro c hcm
      obtain ⟨k2, _, he⟩ := List.mem_filterMap.mp hcm
      obtain ⟨v, _, rfl⟩ := Option.map_eq_some'.mp he
      simp
    have hcm := diffCommons_filter_change original new k o n ho hn
      ((pyKeys (original.map Prod.fst)).filter (fun k => k ∈ pyKeys (new.map Prod.fst)))
      commons ((pyKeys_nodup _).filter _) hcommons
    rw [if_pos hkmem] at hcm
    rw [hr, ha, hcm, List.nil_append, List.nil_append]
  refine ⟨hmain, fun a w => mem_dict_delta, dict_delta_keys_nodup o n, ?_⟩
  rw [hmain, List.length_map, dict_delta_length]

/-- Witness for C4: two one-key manifests whose mappings differ in
exactly the field f produce exactly one change operation, carrying only
field f with its new value. -/
theorem C4_diff_one_change_per_field_witness :
    ([((Action.change, "k", Payload.field "f" (some 2)) :
        Action × String × Payload Nat Nat)].filter
        (fun c => c.1 == Action.change && c.2.1 == "k"))
      = (dict_delta [("f", 1), ("g", 5)] [("f", 2), ("g", 5)]).map
          (fun av => (Action.change, "k", Payload.field av.1 av.2))
    ∧ (∀ a w, (a, w) ∈ dict_delta (V := Nat) [("f", 1), ("g", 5)] [("f", 2), ("g", 5)] ↔
        pyGet [("f", 1), ("g", 5)] a ≠ pyGet [("f", 2), ("g", 5)] a
        ∧ w = pyGet [("f", 2), ("g", 5)] a)
    ∧ ((dict_delta (V := Nat) [("f", 1), ("g", 5)] [("f", 2), ("g", 5)]).map Prod.fst).Nodup
    ∧ (([((Action.change, "k", Payload.field "f" (some 2)) :
          Action × String × Payload Nat Nat)]).filter
          (fun c => c.1 == Action.change && c.2.1 == "k")).length
        = ((pyKeys ([("f", 1), ("g", 5)].map Prod.fst
              ++ ([("f", 2), ("g", 5)] : List (String × Nat)).map Prod.fst)).filter
            (fun a => pyGet [("f", 1), ("g", 5)] a ≠ pyGet [("f", 2), ("g", 5)] a)).length :=
  C4_diff_one_change_per_field
    [("k", Value.attrs [("f", 1), ("g", 5)])]
    [("k", Value.attrs [("f", 2), ("g", 5)])]
    "k" [("f", 1), ("g", 5)] [("f", 2), ("g", 5)]
    [(Action.change, "k", Payload.field "f" (some 2))]
    rfl rfl (by decide)

section DiffSelfLemmas

variable {V I : Type} [DecidableEq V] [DecidableEq I]

/-- dict_delta of a mapping against itself is empty. -/
theorem dict_delta_self (o : List (String × V)) : dict_delta o o = [] := by
  rw [dict_delta_split]
  have h1 : (pyKeys (o.map Prod.fst)).filter
      (fun k => k ∉ pyKeys (o.map Prod.fst)) = [] :=
    List.filter_eq_nil_iff.mpr (fun a ha h => (of_decide_eq_true h) ha)
  have h2 : (pyKeys (o.map Prod.fst)).filter
      (fun k => k ∈ pyKeys (o.map Prod.fst) ∧ pyGet o k ≠ pyGet o k) = [] :=
    List.filter_eq_nil_iff.mpr (fun _ _ h => (of_decide_eq_true h).2 rfl)
  rw [h1, h2]
  rfl

/-- Self-filtering a list by non-membership in itself is empty. -/
theorem filter_not_mem_self (l : List I) : l.filter (fun it => it ∉ l) = [] :=
  List.filter_eq_nil_iff.mpr (fun _ ha h => (of_decide_eq_true h) ha)

/-- diffCommons of a manifest against itself yields no operations, for
any key list whose keys are all present. -/
theorem diffCommons_self (x : List (String × Value V I)) :
    ∀ ks : List String, (∀ k ∈ ks, k ∈ x.map Prod.fst) →
      diffCommons x x ks = some [] := by
  intro ks
  induction ks with
  | nil => intro _; rfl
  | cons k rest ih =>
    intro hks
    have hk : (pyGet x k).isSome = true :=
      pyGet_isSome.mpr (hks k (List.mem_cons_self _ _))
    have htail := ih (fun k2 hk2 => hks k2 (List.mem_cons_of_mem _ hk2))
    rcases hsome : pyGet x k with _ | v
    · rw [hsome] at hk
      cases hk
    · cases v with
      | attrs o =>
        simp only [diffCommons, hsome, htail, Option.map_some', dict_delta_self,
          List.map_nil, List.nil_append]
      | items l =>
        simp only [diffCommons, hsome, htail, Option.map_some', filter_not_mem_self,
          List.map_nil, List.nil_append]

/-- diff of a manifest against itself yields no operations. -/
theorem diff_self (x : List (String × Value V I)) : diff x x = some [] := by
  simp only [diff]
  have h1 : (pyKeys (x.map Prod.fst)).filter
      (fun k => k ∉ pyKeys (x.map Prod.fst)) = [] :=
    List.filter_eq_nil_iff.mpr (fun a ha h => (of_decide_eq_true h) ha)
  have hcom := diffCommons_self x
    ((pyKeys (x.map Prod.fst)).filter (fun k => k ∈ pyKeys (x.map Prod.fst)))
    (fun k hk => mem_pyKeys.mp (List.mem_filter.mp hk).1)
  rw [h1, hcom]
  rfl

end DiffSelfLemmas

section KahnLemmas

/-- Number of edges into m from nodes not yet processed: the invariant
value of the in-degree table entry of m during the Kahn loop. -/
def countPreds (E : List (String × String)) (ns : List String) (m : String) : Nat :=
  E.countP (fun p => p.2 = m ∧ p.1 ∉ ns)

/-- Successor list of a node along the edge list. -/
def succs (E : List (String × String)) (x : String) : List String :=
  (E.filter (fun p => p.1 = x)).map Prod.snd

/-- Membership in the successor list is edge membership. -/
theorem mem_succs {E : List (String × String)} {x b : String} :
    b ∈ succs E x ↔ (x, b) ∈ E := by
  unfold succs
  constructor
  · intro h
    obtain ⟨p, hp, he⟩ := List.mem_map.mp h
    obtain ⟨hpE, hpx⟩ := List.mem_filter.mp hp
    have : p = (x, b) := by
      cases p
      cases of_decide_eq_true hpx
      cases he
      rfl
    exact this ▸ hpE
  · intro h
    exact List.mem_map.mpr ⟨(x, b), List.mem_filter.mpr ⟨h, by simp⟩, rfl⟩

/-- The successor list of a node carries no duplicates when the edge
list carries none. -/
theorem succs_nodup {E : List (String × String)} (hE : E.Nodup) (x : String) :
    (succs E x).Nodup := by
  refine List.Nodup.map_on ?_ ((List.filter_sublist E).nodup hE)
  intro p hp q hq he
  obtain ⟨_, hpx⟩ := List.mem_filter.mp hp
  obtain ⟨_, hqx⟩ := List.mem_filter.mp hq
  cases p
  cases q
  cases of_decide_eq_true hpx
  cases of_decide_eq_true hqx
  cases he
  rfl

/-- The in-degree table built by the ref loop counts incoming edges. -/
theorem initDegrees_eq (E : List (String × String)) (m : String) :
    initDegrees E m = (E.countP (fun p => p.2 = m) : Int) := by
  have main : ∀ (l : List (String × String)) (d : String → Int),
      (l.foldl (fun d p => bumpDeg d p.2 1) d) m = d m + (l.countP (fun p => p.2 = m) : Int) := by
    intro l
    induction l with
    | nil => intro d; simp [List.countP_nil]
    | cons p rest ih =>
      intro d
      rw [List.foldl_cons, ih, List.countP_cons]
      unfold bumpDeg
      by_cases h : p.2 = m
      · simp [h]
        omega
      · simp [h]
        exact fun e => absurd e.symm h
  have := main E (fun _ => 0)
  simpa [initDegrees] using this

/-- The outgoing-edge table built by the ref loop is the successor list,
provided the edge list carries no duplicates. -/
theorem initOutgoing_eq {E : List (String × String)} (hE : E.Nodup) (x : String) :
    initOutgoing E x = succs E x := by
  have main : ∀ (l : List (String × String)) (o : String → List String),
      (l.foldl (fun o p => fun y => if y = p.1 then insertAbsent (o p.1) p.2 else o y) o) x
        = (succs l x).foldl insertAbsent (o x) := by
    intro l
    induction l with
    | nil => intro o; rfl
    | cons p rest ih =>
      intro o
      rw [List.foldl_cons, ih]
      by_cases h : p.1 = x
      · have hs : succs (p :: rest) x = p.2 :: succs rest x := by
          unfold succs
          rw [List.filter_cons_of_pos (by simpa using h), List.map_cons]
        rw [hs, List.foldl_cons]
        subst h
        simp
      · have hs : succs (p :: rest) x = succs rest x := by
          unfold succs
          rw [List.filter_cons_of_neg (by simpa using h)]
        rw [hs]
        congr 1
        show (if x = p.1 then insertAbsent (o p.1) p.2 else o x) = o x
        rw [if_neg (fun e : x = p.1 => h e.symm)]
  have hfold : ∀ (L : List String) (A : List String), L.Nodup → (∀ b ∈ L, b ∉ A) →
      L.foldl insertAbsent A = A ++ L := by
    intro L
    induction L with
    | nil => intro A _ _; simp
    | cons b rest ih =>
      intro A hnd hdisj
      rw [List.foldl_cons]
      have hb : b ∉ A := hdisj b (List.mem_cons_self _ _)
      have : insertAbsent A b = A ++ [b] := by
        unfold insertAbsent
        rw [if_neg hb]
      rw [this, ih (A ++ [b]) (List.nodup_cons.mp hnd).2 ?_]
      · simp
      · intro c hc hmem
        rcases List.mem_append.mp hmem with h1 | h2
        · exact hdisj c (List.mem_cons_of_mem _ hc) h1
        · exact (List.nodup_cons.mp hnd).1 ((List.mem_singleton.mp h2) ▸ hc)
  have h0 := main E (fun _ => [])
  rw [show initOutgoing E x = (succs E x).foldl insertAbsent [] from h0]
  simpa using hfold (succs E x) [] (succs_nodup hE x) (by simp)

/-- All in-degrees decremented along a neighbor list. -/
def decAll (deg : String → Int) (L : List String) : String → Int :=
  fun x => if x ∈ L then deg x - 1 else deg x

/-- The neighbor fold of one Kahn iteration: every neighbor in-degree is
decremented once, and the neighbors that reach zero (those at one
beforehand) are appended, in order, to the queue and to the
empty-neighbor set. -/
theorem stepFold_spec : ∀ (L : List String), L.Nodup →
    ∀ (deg : String → Int) (q e : List String),
      L.foldl stepFold ⟨deg, q, e⟩
        = ⟨decAll deg L, q ++ L.filter (fun b => deg b = 1),
           e ++ L.filter (fun b => deg b = 1)⟩ := by
  intro L
  induction L with
  | nil =>
    intro _ deg q e
    simp only [List.foldl_nil, List.filter_nil, List.append_nil]
    have : decAll deg [] = deg := by
      funext x
      unfold decAll
      simp
    rw [this]
  | cons b rest ih =>
    intro hnd deg q e
    have hbrest : b ∉ rest := (List.nodup_cons.mp hnd).1
    have hrest : rest.Nodup := (List.nodup_cons.mp hnd).2
    rw [List.foldl_cons]
    have hb : bumpDeg deg b (-1) b = deg b - 1 := by
      unfold bumpDeg
      rw [if_pos rfl]
      ring
    have hdec : decAll (bumpDeg deg b (-1)) rest = decAll deg (b :: rest) := by
      funext x
      unfold decAll bumpDeg
      by_cases hxr : x ∈ rest
      · have hxb : ¬x = b := fun e => hbrest (e ▸ hxr)
        rw [if_pos hxr, if_pos (List.mem_cons_of_mem _ hxr), if_neg hxb]
      · by_cases hxb : x = b
        · subst hxb
          rw [if_neg hxr, if_pos rfl, if_pos (List.mem_cons_self _ _)]
          ring
        · rw [if_neg hxr, if_neg hxb,
            if_neg (fun hm => (List.mem_cons.mp hm).elim hxb hxr)]
    have hfilt : rest.filter (fun c => bumpDeg deg b (-1) c = 1)
        = rest.filter (fun c => deg c = 1) := by
      refine List.filter_congr ?_
      intro x hx
      have hxb : ¬x = b := fun e => hbrest (e ▸ hx)
      unfold bumpDeg
      rw [if_neg hxb]
    by_cases h1 : deg b = 1
    · have hcond : (bumpDeg deg b (-1)) b = 0 := by rw [hb, h1]; ring
      have hstep : stepFold ⟨deg, q, e⟩ b
          = ⟨bumpDeg deg b (-1), q ++ [b], e ++ [b]⟩ := by
        show (if bumpDeg deg b (-1) b = 0 then
            (⟨bumpDeg deg b (-1), q ++ [b], e ++ [b]⟩ : KStep)
          else ⟨bumpDeg deg b (-1), q, e⟩) = ⟨bumpDeg deg b (-1), q ++ [b], e ++ [b]⟩
        rw [if_pos hcond]
      rw [hstep, ih hrest, hdec, hfilt]
      have hfc : (b :: rest).filter (fun c => deg c = 1) = b :: rest.filter (fun c => deg c = 1) :=
        List.filter_cons_of_pos (by simpa using h1)
      rw [hfc]
      simp
    · have hcond : ¬(bumpDeg deg b (-1)) b = 0 := by
        rw [hb]
        intro he
        exact h1 (by omega)
      have hstep : stepFold ⟨deg, q, e⟩ b = ⟨bumpDeg deg b (-1), q, e⟩ := by
        show (if bumpDeg deg b (-1) b = 0 then
            (⟨bumpDeg deg b (-1), q ++ [b], e ++ [b]⟩ : KStep)
          else ⟨bumpDeg deg b (-1), q, e⟩) = ⟨bumpDeg deg b (-1), q, e⟩
        rw [if_neg hcond]
      rw [hstep, ih hrest, hdec, hfilt]
      have hfc : (b :: rest).filter (fun c => deg c = 1) = rest.filter (fun c => deg c = 1) :=
        List.filter_cons_of_neg (by simpa using h1)
      rw [hfc]

end KahnLemmas

section KahnInvariant

/-- countP is invariant under pointwise equal predicates. -/
theorem countP_congr {α : Type _} {p q : α → Bool} {l : List α}
    (h : ∀ a ∈ l, p a = q a) : l.countP p = l.countP q := by
  induction l with
  | nil => simp
  | cons a t ih =>
    rw [List.countP_cons, List.countP_cons, h a (List.mem_cons_self _ _),
      ih (fun x hx => h x (List.mem_cons_of_mem _ hx))]

/-- countP of a predicate splits along any second predicate. -/
theorem countP_split {α : Type _} (p q : α → Bool) (l : List α) :
    l.countP p = l.countP (fun a => p a && q a) + l.countP (fun a => p a && !q a) := by
  induction l with
  | nil => simp
  | cons a t ih =>
    rw [List.countP_cons, List.countP_cons, List.countP_cons]
    cases hp : p a <;> cases hq : q a <;> simp [hp, hq] <;> omega

/-- In a duplicate-free list, the count of one element is its indicator. -/
theorem countP_eq_pair (E : List (String × String)) (hE : E.Nodup) (e : String × String) :
    E.countP (fun p => p = e) = if e ∈ E then 1 else 0 := by
  induction E with
  | nil => simp
  | cons a t ih =>
    obtain ⟨hat, htd⟩ := List.nodup_cons.mp hE
    rw [List.countP_cons, ih htd]
    by_cases hae : a = e
    · subst hae
      have hz : ¬a ∈ t := hat
      rw [if_neg hz, if_pos (List.mem_cons_self _ _)]
      simp
    · by_cases het : e ∈ t
      · rw [if_pos het, if_pos (List.mem_cons_of_mem _ het)]
        simp [hae]
      · rw [if_neg het, if_neg (fun hm => (List.mem_cons.mp hm).elim
          (fun e2 => hae e2.symm) het)]
        simp [hae]

/-- Processing one more node removes exactly the edges out of that node
from the pending in-degree count of each node. -/
theorem countPreds_append {E : List (String × String)} (hE : E.Nodup)
    {n : String} {ns : List String} (hn : n ∉ ns) (m : String) :
    countPreds E ns m
      = countPreds E (ns ++ [n]) m + (if (n, m) ∈ E then 1 else 0) := by
  unfold countPreds
  rw [countP_split (fun p : String × String => decide (p.2 = m ∧ p.1 ∉ ns))
    (fun p : String × String => decide (p.1 = n)) E]
  have h1 : E.countP (fun p => decide (p.2 = m ∧ p.1 ∉ ns) && decide (p.1 = n))
      = E.countP (fun p => p = (n, m)) := by
    refine countP_congr ?_
    intro p _
    by_cases h2 : p.1 = n
    · by_cases h3 : p.2 = m
      · have he : p = (n, m) := by
          cases p
          cases h2
          cases h3
          rfl
        simp [he, hn]
      · have he : ¬p = (n, m) := fun e => h3 (by rw [e])
        simp [h3, he]
    · have he : ¬p = (n, m) := fun e => h2 (by rw [e])
      simp [h2, he]
  have h2 : E.countP (fun p => decide (p.2 = m ∧ p.1 ∉ ns) && !decide (p.1 = n))
      = E.countP (fun p => decide (p.2 = m ∧ p.1 ∉ ns ++ [n])) := by
    refine countP_congr ?_
    intro p _
    by_cases hpn : p.1 = n
    · simp [hpn, hn]
    · by_cases hpns : p.1 ∈ ns <;> simp [hpn, hpns]
  rw [h1, h2, countP_eq_pair E hE]
  omega

/-- Loop invariant of the Kahn while loop over edge list E and node
key set K: ns is the emitted output so far, queue the pending nodes. -/
structure KInv (E : List (String × String)) (K : List String)
    (deg : String → Int) (out : String → List String)
    (queue ns : List String) : Prop where
  nsSub : ∀ x ∈ ns, x ∈ K
  qSub : ∀ x ∈ queue, x ∈ K
  nsNodup : ns.Nodup
  qNodup : queue.Nodup
  disj : ∀ x ∈ queue, x ∉ ns
  degSpec : ∀ m2, deg m2 = (countPreds E ns m2 : Int)
  outSpec : ∀ x, x ∉ ns → out x = succs E x
  qZero : ∀ x ∈ queue, deg x = 0
  zeroLoc : ∀ m2 ∈ K, deg m2 = 0 → m2 ∈ ns ∨ m2 ∈ queue
  nsOrder : ∀ p ∈ E, ∀ j : Nat, ns[j]? = some p.2 → ∃ i2, i2 < j ∧ ns[i2]? = some p.1

/-- Processed nodes keep a fully processed predecessor set. -/
theorem KInv.nsClosed {E K deg out queue ns} (inv : KInv E K deg out queue ns) :
    ∀ p ∈ E, p.2 ∈ ns → p.1 ∈ ns := by
  intro p hp hm
  obtain ⟨j, hj⟩ := List.mem_iff_getElem?.mp hm
  obtain ⟨i2, _, hi2⟩ := inv.nsOrder p hp j hj
  exact List.mem_iff_getElem?.mpr ⟨i2, hi2⟩

/-- Processed nodes have pending in-degree zero. -/
theorem KInv.nsCount {E K deg out queue ns} (inv : KInv E K deg out queue ns) :
    ∀ x ∈ ns, countPreds E ns x = 0 := by
  intro x hx
  refine List.countP_eq_zero.mpr ?_
  intro p hp hdec
  obtain ⟨h2, h1⟩ := of_decide_eq_true hdec
  exact h1 (inv.nsClosed p hp (h2 ▸ hx))

/-- One iteration of the Kahn while loop preserves the invariant. -/
theorem kahn_step_inv {E : List (String × String)} {K : List String}
    {deg : String → Int} {out : String → List String} {n : String}
    {q ns : List String}
    (hE : ∀ p ∈ E, p.1 ∈ K ∧ p.2 ∈ K) (hEdup : E.Nodup)
    (out1 : String → List String) (hout1 : ∀ x, ¬x = n → out1 x = out x)
    (inv : KInv E K deg out (n :: q) ns) :
    KInv E K (decAll deg (succs E n)) out1
      (q ++ (succs E n).filter (fun b => deg b = 1)) (ns ++ [n]) := by
  have hnK : n ∈ K := inv.qSub n (List.mem_cons_self _ _)
  have hnns : n ∉ ns := inv.disj n (List.mem_cons_self _ _)
  have hdegn : deg n = 0 := inv.qZero n (List.mem_cons_self _ _)
  have hcntn : countPreds E ns n = 0 := by
    have := inv.degSpec n
    rw [hdegn] at this
    exact_mod_cast this.symm
  have hnq : n ∉ q := (List.nodup_cons.mp inv.qNodup).1
  have hqd : q.Nodup := (List.nodup_cons.mp inv.qNodup).2
  have hPredsDone : ∀ p ∈ E, p.2 = n → p.1 ∈ ns := by
    intro p hp h2
    by_contra h1
    have : ¬(decide (p.2 = n ∧ p.1 ∉ ns) = true) := List.countP_eq_zero.mp hcntn p hp
    exact this (decide_eq_true ⟨h2, h1⟩)
  have hNoSelf : (n, n) ∉ E := fun hm => hnns (hPredsDone (n, n) hm rfl)
  have hnew : ∀ b, b ∈ (succs E n).filter (fun b => deg b = 1) →
      (n, b) ∈ E ∧ deg b = 1 := by
    intro b hb
    obtain ⟨hbL, hb1⟩ := List.mem_filter.mp hb
    exact ⟨mem_succs.mp hbL, of_decide_eq_true hb1⟩
  have hnewNs : ∀ b, b ∈ (succs E n).filter (fun b => deg b = 1) → b ∉ ns := by
    intro b hb hbn
    have h1 := (hnew b hb).2
    have h0 : deg b = 0 := by
      rw [inv.degSpec b, inv.nsCount b hbn]
      rfl
    rw [h0] at h1
    cases h1
  have hnewNe : ∀ b, b ∈ (succs E n).filter (fun b => deg b = 1) → ¬b = n := by
    intro b hb he
    exact hNoSelf (he ▸ (hnew b hb).1)
  have hdecEq : ∀ m2, decAll deg (succs E n) m2 = (countPreds E (ns ++ [n]) m2 : Int) := by
    intro m2
    have hca := countPreds_append hEdup hnns m2 (E := E)
    unfold decAll
    by_cases hm2 : m2 ∈ succs E n
    · have hmem : (n, m2) ∈ E := mem_succs.mp hm2
      rw [if_pos hm2, inv.degSpec m2, hca, if_pos hmem]
      push_cast
      ring
    · have hmem : (n, m2) ∉ E := fun hm => hm2 (mem_succs.mpr hm)
      rw [if_neg hm2, inv.degSpec m2, hca, if_neg hmem]
      push_cast
      ring
  refine ⟨?_, ?_, ?_, ?_, ?_, hdecEq, ?_, ?_, ?_, ?_⟩
  · intro x hx
    rcases List.mem_append.mp hx with h1 | h2
    · exact inv.nsSub x h1
    · exact (List.mem_singleton.mp h2) ▸ hnK
  · intro x hx
    rcases List.mem_append.mp hx with h1 | h2
    · exact inv.qSub x (List.mem_cons_of_mem _ h1)
    · exact (hE _ (hnew x h2).1).2
  · exact List.nodup_append.mpr ⟨inv.nsNodup, List.nodup_singleton n,
      fun a ha hb => (List.mem_singleton.mp hb ▸ hnns) ha⟩
  · refine List.nodup_append.mpr ⟨hqd, ((succs_nodup hEdup n).filter _), ?_⟩
    intro a ha hb
    have h0 : deg a = 0 := inv.qZero a (List.mem_cons_of_mem _ ha)
    have h1 : deg a = 1 := (hnew a hb).2
    rw [h0] at h1
    cases h1
  · intro x hx hmem
    rcases List.mem_append.mp hmem with h1 | h2
    · rcases List.mem_append.mp hx with hq1 | hq2
      · exact inv.disj x (List.mem_cons_of_mem _ hq1) h1
      · exact hnewNs x hq2 h1
    · have hxn : x = n := List.mem_singleton.mp h2
      rcases List.mem_append.mp hx with hq1 | hq2
      · exact hnq (hxn ▸ hq1)
      · exact hnewNe x hq2 hxn
  · intro x hx
    have hxn : ¬x = n := fun e => hx (e ▸ List.mem_append.mpr
      (Or.inr (List.mem_singleton.mpr rfl)))
    rw [hout1 x hxn]
    exact inv.outSpec x (fun hm => hx (List.mem_append.mpr (Or.inl hm)))
  · intro x hx
    rcases List.mem_append.mp hx with h1 | h2
    · have h0 : deg x = 0 := inv.qZero x (List.mem_cons_of_mem _ h1)
      have hxL : x ∉ succs E n := by
        intro hm
        have hedge : (n, x) ∈ E := mem_succs.mp hm
        have : countPreds E ns x = 0 := by
          have := inv.degSpec x
          rw [h0] at this
          exact_mod_cast this.symm
        have hdec := List.countP_eq_zero.mp this (n, x) hedge
        exact hdec (decide_eq_true ⟨rfl, hnns⟩)
      unfold decAll
      rw [if_neg hxL]
      exact h0
    · obtain ⟨hxL, hx1⟩ := List.mem_filter.mp h2
      unfold decAll
      rw [if_pos hxL]
      rw [of_decide_eq_true hx1]
      ring
  · intro m2 hm2K hm2z
    unfold decAll at hm2z
    by_cases hm2L : m2 ∈ succs E n
    · rw [if_pos hm2L] at hm2z
      have : deg m2 = 1 := by omega
      exact Or.inr (List.mem_append.mpr (Or.inr
        (List.mem_filter.mpr ⟨hm2L, decide_eq_true this⟩)))
    · rw [if_neg hm2L] at hm2z
      rcases inv.zeroLoc m2 hm2K hm2z with h1 | h2
      · exact Or.inl (List.mem_append.mpr (Or.inl h1))
      · rcases List.mem_cons.mp h2 with he | hq1
        · exact Or.inl (List.mem_append.mpr (Or.inr (he ▸ List.mem_singleton.mpr rfl)))
        · exact Or.inr (List.mem_append.mpr (Or.inl hq1))
  · intro p hp j hj
    by_cases hjlen : j < ns.length
    · rw [List.getElem?_append_left hjlen] at hj
      obtain ⟨i2, hi2lt, hi2⟩ := inv.nsOrder p hp j hj
      exact ⟨i2, hi2lt, by
        rw [List.getElem?_append_left (Nat.lt_trans hi2lt hjlen)]
        exact hi2⟩
    · have hjge : ns.length ≤ j := Nat.le_of_not_lt hjlen
      rw [List.getElem?_append_right hjge] at hj
      have hj0 : j - ns.length = 0 := by
        by_contra hne
        have : ([n] : List String)[j - ns.length]? = none := by
          refine List.getElem?_eq_none ?_
          simp
          omega
        rw [this] at hj
        cases hj
      have hp2 : p.2 = n := by
        rw [hj0] at hj
        simpa using hj.symm
      have hp1ns : p.1 ∈ ns := hPredsDone p hp hp2
      obtain ⟨i2, hi2⟩ := List.mem_iff_getElem?.mp hp1ns
      have hi2len : i2 < ns.length := by
        rcases List.getElem?_eq_some_iff.mp hi2 with ⟨hlt, _⟩
        exact hlt
      refine ⟨i2, by omega, ?_⟩
      rw [List.getElem?_append_left hi2len]
      exact hi2

/-- The invariant holds on entry to the Kahn while loop. -/
theorem kahn_init_inv {E : List (String × String)} {K : List String}
    (hEdup : E.Nodup) (hK : K.Nodup) :
    KInv E K (initDegrees E) (initOutgoing E)
      (K.filter (fun k => initDegrees E k = 0)) [] := by
  have hdeg : ∀ m2, initDegrees E m2 = (countPreds E [] m2 : Int) := by
    intro m2
    rw [initDegrees_eq]
    unfold countPreds
    congr 1
    refine (countP_congr ?_).symm
    intro p _
    by_cases h : p.2 = m2 <;> simp [h]
  refine ⟨?_, ?_, List.nodup_nil, hK.filter _, ?_, hdeg, ?_, ?_, ?_, ?_⟩
  · intro x hx
    cases hx
  · intro x hx
    exact (List.mem_filter.mp hx).1
  · intro x _ hm
    cases hm
  · intro x _
    exact initOutgoing_eq hEdup x
  · intro x hx
    exact of_decide_eq_true (List.mem_filter.mp hx).2
  · intro m2 hm2 h0
    exact Or.inr (List.mem_filter.mpr ⟨hm2, decide_eq_true h0⟩)
  · intro p _ j hj
    cases hj

end KahnInvariant

/-- topological_sort succeeds whenever every ref edge endpoint is among
the distinct nodes, returning the rank dict of the reversed Kahn output. -/
theorem topological_sort_eq_some {refs : List (String × String)} {urns : List String}
    (h : ∀ p ∈ refs, p.1 ∈ pyKeys urns ∧ p.2 ∈ pyKeys urns) :
    topological_sort refs urns
      = some (rankFrom 0 (kahnLoop ((pyKeys urns).length + 1) (initDegrees refs)
          (initOutgoing refs)
          ((pyKeys urns).filter (fun k => initDegrees refs k = 0)) []).reverse) := by
  simp only [topological_sort]
  rw [if_pos h]

section KahnDrain

/-- Running the Kahn loop with fuel exceeding the number of distinct
nodes drains the queue completely and preserves the invariant. -/
theorem kahnLoop_drain {E : List (String × String)} {K : List String}
    (hE : ∀ p ∈ E, p.1 ∈ K ∧ p.2 ∈ K) (hEdup : E.Nodup) :
    ∀ (fuel : Nat) (deg : String → Int) (out : String → List String)
      (queue ns : List String), KInv E K deg out queue ns →
      K.length + 1 ≤ fuel + ns.length →
      ∃ deg2 out2, KInv E K deg2 out2 [] (kahnLoop fuel deg out queue ns) := by
  intro fuel
  induction fuel with
  | zero =>
    intro deg out queue ns inv hlen
    exfalso
    have hsub : ns ⊆ K := fun x hx => inv.nsSub x hx
    have := (List.subperm_of_subset inv.nsNodup hsub).length_le
    omega
  | succ f ih =>
    intro deg out queue ns inv hlen
    cases queue with
    | nil =>
      exact ⟨deg, out, by simpa only [kahnLoop] using inv⟩
    | cons n q =>
      have hnns : n ∉ ns := inv.disj n (List.mem_cons_self _ _)
      have houtn : out n = succs E n := inv.outSpec n hnns
      have houtd : (out n).Nodup := by
        rw [houtn]
        exact succs_nodup hEdup n
      have hfold := stepFold_spec (out n) houtd deg q []
      simp only [kahnLoop]
      rw [hfold]
      simp only [houtn, List.nil_append]
      refine ih _ _ _ _ ?_ ?_
      · exact kahn_step_inv hE hEdup _ (fun x hx => if_neg hx) inv
      · rw [List.length_append]
        simp only [List.length_cons, List.length_nil]
        omega

/-- When the queue has drained, every node of the key set has been
emitted, provided the edge relation is well-founded (the graph is
acyclic). -/
theorem kinv_complete {E : List (String × String)} {K : List String}
    {deg : String → Int} {out : String → List String} {ns : List String}
    (hE : ∀ p ∈ E, p.1 ∈ K ∧ p.2 ∈ K)
    (hwf : WellFounded (edgeRel E))
    (inv : KInv E K deg out [] ns) : ∀ m ∈ K, m ∈ ns := by
  by_contra hc
  push_neg at hc
  obtain ⟨m0, hm0K, hm0⟩ := hc
  obtain ⟨m, hmKns, hmin⟩ := hwf.has_min {x | x ∈ K ∧ x ∉ ns} ⟨m0, hm0K, hm0⟩
  obtain ⟨hmK, hmns⟩ := hmKns
  have hdeg : deg m = (countPreds E ns m : Int) := inv.degSpec m
  by_cases h0 : countPreds E ns m = 0
  · have hz : deg m = 0 := by
      rw [hdeg, h0]
      rfl
    rcases inv.zeroLoc m hmK hz with h1 | h2
    · exact hmns h1
    · exact absurd h2 (List.not_mem_nil m)
  · have hpos : 0 < countPreds E ns m := Nat.pos_of_ne_zero h0
    obtain ⟨p, hp, hdec⟩ := List.countP_pos_iff.mp hpos
    obtain ⟨h2, h1⟩ := of_decide_eq_true hdec
    have hedge : edgeRel E p.1 m := by
      unfold edgeRel
      have he : p = (p.1, m) := by
        cases p
        cases h2
        rfl
      exact he ▸ hp
    exact hmin p.1 ⟨(hE p hp).1, h1⟩ hedge

/-- rankFrom misses exactly the values not listed. -/
theorem rankFrom_eq_none {L : List String} {x : String} (h : x ∉ L) :
    ∀ i, rankFrom i L x = none := by
  induction L with
  | nil => intro i; rfl
  | cons a rest ih =>
    intro i
    have hxr : x ∉ rest := fun hm => h (List.mem_cons_of_mem _ hm)
    have hxa : ¬x = a := fun e => h (e ▸ List.mem_cons_self _ _)
    simp only [rankFrom, ih hxr, if_neg hxa]

/-- rankFrom assigns an index to every listed value. -/
theorem rankFrom_isSome {L : List String} {x : String} (h : x ∈ L) :
    ∀ i, ∃ j, rankFrom i L x = some j := by
  induction L with
  | nil => exact absurd h (List.not_mem_nil x)
  | cons a rest ih =>
    intro i
    by_cases hxr : x ∈ rest
    · obtain ⟨j, hj⟩ := ih hxr (i + 1)
      exact ⟨j, by simp only [rankFrom, hj]⟩
    · have hxa : x = a := ((List.mem_cons.mp h).elim id (fun hm => absurd hm hxr))
      refine ⟨i, ?_⟩
      simp only [rankFrom, rankFrom_eq_none hxr, if_pos hxa]

/-- On a duplicate-free list, rankFrom computes exactly the position of
the value, offset by the start index. -/
theorem rankFrom_char {L : List String} (hL : L.Nodup) {x : String} :
    ∀ i j, rankFrom i L x = some j ↔ ∃ t, j = i + t ∧ L[t]? = some x := by
  induction L with
  | nil =>
    intro i j
    constructor
    · intro h
      cases h
    · rintro ⟨t, _, ht⟩
      simp at ht
  | cons a rest ih =>
    intro i j
    obtain ⟨har, hrd⟩ := List.nodup_cons.mp hL
    by_cases hxr : x ∈ rest
    · obtain ⟨j0, hj0⟩ := rankFrom_isSome hxr (i + 1)
      have hxa : ¬x = a := fun e => har (e ▸ hxr)
      simp only [rankFrom, hj0]
      constructor
      · intro he
        obtain rfl := Option.some.inj he
        obtain ⟨t, ht1, ht2⟩ := (ih hrd (i + 1) j0).mp hj0
        exact ⟨t + 1, by omega, by simpa using ht2⟩
      · rintro ⟨t, rfl, ht2⟩
        cases t with
        | zero =>
          exact absurd (show x = a by simpa using ht2.symm) hxa
        | succ t0 =>
          have hr : rest[t0]? = some x := by simpa using ht2
          have := (ih hrd (i + 1) (i + 1 + t0)).mpr ⟨t0, rfl, hr⟩
          rw [hj0] at this
          obtain rfl := Option.some.inj this
          congr 1
          omega
    · have hnone := rankFrom_eq_none hxr (i + 1)
      by_cases hxa : x = a
      · subst hxa
        simp only [rankFrom, hnone, if_pos rfl]
        constructor
        · intro he
          obtain rfl := Option.some.inj he
          exact ⟨0, by omega, by simp⟩
        · rintro ⟨t, rfl, ht2⟩
          cases t with
          | zero => simp
          | succ t0 =>
            exact absurd (List.mem_iff_getElem?.mpr ⟨t0, by simpa using ht2⟩) hxr
      · simp only [rankFrom, hnone, if_neg hxa]
        constructor
        · intro he
          cases he
        · rintro ⟨t, rfl, ht2⟩
          cases t with
          | zero =>
            exact absurd (show x = a by simpa using ht2.symm) hxa
          | succ t0 =>
            exact absurd (List.mem_iff_getElem?.mpr ⟨t0, by simpa using ht2⟩) hxr

/-- Full correctness of topological_sort on a duplicate-free acyclic
edge list with endpoints among the nodes: every node receives a rank,
and every edge has the rank of its dependency strictly below the rank of
its dependent. -/
theorem topological_sort_spec (refs : List (String × String)) (urns : List String)
    (hend : ∀ p ∈ refs, p.1 ∈ urns ∧ p.2 ∈ urns)
    (hdup : refs.Nodup) (hwf : WellFounded (edgeRel refs)) :
    ∃ rank, topological_sort refs urns = some rank
      ∧ (∀ x ∈ urns, ∃ i, rank x = some i)
      ∧ (∀ p ∈ refs, ∀ i j, rank p.2 = some i → rank p.1 = some j → i < j) := by
  have hendK : ∀ p ∈ refs, p.1 ∈ pyKeys urns ∧ p.2 ∈ pyKeys urns := fun p hp =>
    ⟨mem_pyKeys.mpr (hend p hp).1, mem_pyKeys.mpr (hend p hp).2⟩
  have hK : (pyKeys urns).Nodup := pyKeys_nodup urns
  obtain ⟨deg2, out2, hinv⟩ := kahnLoop_drain hendK hdup ((pyKeys urns).length + 1)
    (initDegrees refs) (initOutgoing refs)
    ((pyKeys urns).filter (fun k => initDegrees refs k = 0)) []
    (kahn_init_inv hdup hK) (by simp)
  set ns := kahnLoop ((pyKeys urns).length + 1) (initDegrees refs) (initOutgoing refs)
    ((pyKeys urns).filter (fun k => initDegrees refs k = 0)) [] with hns
  have hcomp : ∀ m2 ∈ pyKeys urns, m2 ∈ ns := kinv_complete hendK hwf hinv
  have hrevd : ns.reverse.Nodup := List.nodup_reverse.mpr hinv.nsNodup
  refine ⟨rankFrom 0 ns.reverse, topological_sort_eq_some hendK, ?_, ?_⟩
  · intro x hx
    have hxr : x ∈ ns.reverse := List.mem_reverse.mpr (hcomp x (mem_pyKeys.mpr hx))
    exact rankFrom_isSome hxr 0
  · intro p hp i j hi hj
    obtain ⟨t, hti, ht⟩ := (rankFrom_char hrevd 0 i).mp hi
    obtain ⟨s, hsj, hs⟩ := (rankFrom_char hrevd 0 j).mp hj
    have htlen : t < ns.length := by
      have := (List.getElem?_eq_some_iff.mp ht).1
      rwa [List.length_reverse] at this
    have hslen : s < ns.length := by
      have := (List.getElem?_eq_some_iff.mp hs).1
      rwa [List.length_reverse] at this
    have h2 : ns[ns.length - 1 - t]? = some p.2 :=
      (List.getElem?_reverse htlen).symm.trans ht
    obtain ⟨i2, hi2lt, hi2⟩ := hinv.nsOrder p hp (ns.length - 1 - t) h2
    have hi2len : i2 < ns.length := by omega
    have h3 : ns.reverse[ns.length - 1 - i2]? = some p.1 := by
      have hb : ns.length - 1 - i2 < ns.length := by omega
      rw [List.getElem?_reverse hb]
      have he : ns.length - 1 - (ns.length - 1 - i2) = i2 := by omega
      rw [he]
      exact hi2
    obtain ⟨hbs, hes⟩ := List.getElem?_eq_some_iff.mp hs
    obtain ⟨hb3, he3⟩ := List.getElem?_eq_some_iff.mp h3
    have hse : s = ns.length - 1 - i2 := (hrevd.getElem_inj_iff).mp (hes.trans he3.symm)
    omega

end KahnDrain


section PlanLemmas

variable {V I : Type} [DecidableEq V] [DecidableEq I]

/-- Operations of diffCommons carry keys from the processed key list. -/
theorem diffCommons_keys (original new : List (String × Value V I)) :
    ∀ (ks : List String) (cops : List (Action × String × Payload V I)),
      diffCommons original new ks = some cops → ∀ c ∈ cops, c.2.1 ∈ ks := by
  intro ks
  induction ks with
  | nil =>
    intro cops hc c hcm
    obtain rfl := Option.some.inj hc
    exact absurd hcm (List.not_mem_nil c)
  | cons k1 rest ih =>
    intro cops hc c hcm
    simp only [diffCommons] at hc
    split at hc
    · rename_i o1 n1 heq1 heq2
      obtain ⟨tail, htail, rfl⟩ := Option.map_eq_some'.mp hc
      rcases List.mem_append.mp hcm with h1 | h2
      · obtain ⟨av, _, rfl⟩ := List.mem_map.mp h1
        exact List.mem_cons_self _ _
      · exact List.mem_cons_of_mem _ (ih tail htail c h2)
    · rename_i o1 n1 heq1 heq2
      obtain ⟨tail, htail, rfl⟩ := Option.map_eq_some'.mp hc
      rcases List.mem_append.mp hcm with h12 | h3
      · rcases List.mem_append.mp h12 with h1 | h2
        · obtain ⟨it, _, rfl⟩ := List.mem_map.mp h1
          exact List.mem_cons_self _ _
        · obtain ⟨it, _, rfl⟩ := List.mem_map.mp h2
          exact List.mem_cons_self _ _
      · exact List.mem_cons_of_mem _ (ih tail htail c h3)
    · cases hc

/-- Every diff operation is keyed by an original or a new manifest key. -/
theorem diff_keys {original new : List (String × Value V I)}
    {ops : List (Action × String × Payload V I)}
    (h : diff original new = some ops) :
    ∀ c ∈ ops, c.2.1 ∈ original.map Prod.fst ∨ c.2.1 ∈ new.map Prod.fst := by
  simp only [diff] at h
  obtain ⟨commons, hcommons, rfl⟩ := Option.map_eq_some'.mp h
  intro c hc
  rcases List.mem_append.mp hc with h12 | h3
  · rcases List.mem_append.mp h12 with h1 | h2
    · obtain ⟨k2, hk2, he⟩ := List.mem_filterMap.mp h1
      obtain ⟨v, _, rfl⟩ := Option.map_eq_some'.mp he
      exact Or.inl (mem_pyKeys.mp (List.mem_filter.mp hk2).1)
    · obtain ⟨k2, hk2, he⟩ := List.mem_filterMap.mp h2
      obtain ⟨v, _, rfl⟩ := Option.map_eq_some'.mp he
      exact Or.inr (mem_pyKeys.mp (List.mem_filter.mp hk2).1)
  · have := diffCommons_keys original new _ commons hcommons c h3
    exact Or.inl (mem_pyKeys.mp (List.mem_filter.mp this).1)

/-- A mapM over Option succeeds when every application succeeds. -/
theorem mapM_option_isSome {α β : Type _} (f : α → Option β) :
    ∀ l : List α, (∀ x ∈ l, (f x).isSome = true) → ∃ ys, l.mapM f = some ys := by
  intro l
  induction l with
  | nil => exact fun _ => ⟨[], rfl⟩
  | cons a t ih =>
    intro h
    obtain ⟨y, hy⟩ := Option.isSome_iff_exists.mp (h a (List.mem_cons_self _ _))
    obtain ⟨ys, hys⟩ := ih (fun x hx => h x (List.mem_cons_of_mem _ hx))
    refine ⟨y :: ys, ?_⟩
    rw [List.mapM_cons, hy, hys]
    rfl

end PlanLemmas

/-- C1 (status corrected): counterexample to the claim as stated.  The
edge list with the duplicated edge (a, b) forms an acyclic dependency
graph over the node set of a and b, yet the returned rank mapping misses
node b: the duplicate ref leaves b at in-degree two while the outgoing
set of a, being a set, holds b only once, so b never reaches zero and is
silently dropped. -/
theorem C1_counterexample :
    (∀ p ∈ [("a", "b"), ("a", "b")], p.1 ∈ ["a", "b"] ∧ p.2 ∈ ["a", "b"])
    ∧ WellFounded (edgeRel [("a", "b"), ("a", "b")])
    ∧ (topological_sort [("a", "b"), ("a", "b")] ["a", "b"]).map
        (fun r => (r "a", r "b")) = some (some 0, none) :=
  ⟨by decide,
   wf_of_numbering _ (fun s => if s = "b" then 1 else 0) (by decide),
   by rfl⟩

/-- C1 amended: for every manifest whose _refs edge list is free of
duplicate edges and forms an acyclic dependency graph (acyclicity taken
as well-foundedness of the edge relation) over the node set of desired
urns plus remote keys, and which lists all its entry keys in _urns, the
rank mapping of topological_sort assigns a rank to every node and
satisfies rank(to) < rank(from) for every (from, to) edge, and whenever
the diff step succeeds the plan returned by _plan is sorted by this rank
in nondecreasing order, so a dependency precedes its dependents. -/
theorem C1_topological_order_and_sorted_plan {V I : Type} [DecidableEq V] [DecidableEq I]
    (itemTruthy : I → Bool) (fetch : String → Payload V I → Payload V I)
    (remote : List (String × Value V I)) (m : Manifest V I)
    (hend : ∀ p ∈ m.refs,
      p.1 ∈ m.urns ++ pyKeys (remote.map Prod.fst)
      ∧ p.2 ∈ m.urns ++ pyKeys (remote.map Prod.fst))
    (hdup : m.refs.Nodup)
    (hwf : WellFounded (edgeRel m.refs))
    (hcov : ∀ k ∈ m.entries.map Prod.fst, k ∈ m.urns) :
    ∃ rank, topological_sort m.refs (m.urns ++ pyKeys (remote.map Prod.fst)) = some rank
      ∧ (∀ x ∈ m.urns ++ pyKeys (remote.map Prod.fst), ∃ i, rank x = some i)
      ∧ (∀ p ∈ m.refs, ∀ i j, rank p.2 = some i → rank p.1 = some j → i < j)
      ∧ (∀ ops, diff remote m.entries = some ops →
          ∃ plan, _plan itemTruthy fetch remote m = some plan
            ∧ plan.Pairwise (fun c d => ∀ i j,
                rank c.2.1 = some i → rank d.2.1 = some j → i ≤ j)) := by
  obtain ⟨rank, hts, htotal, horder⟩ := topological_sort_spec m.refs
    (m.urns ++ pyKeys (remote.map Prod.fst)) hend hdup hwf
  refine ⟨rank, hts, htotal, horder, ?_⟩
  intro ops hops
  have hchange : ∀ c ∈ ops.filterMap (fun c =>
      if (fetch c.2.1 c.2.2).isEmpty itemTruthy = true then none
      else some (c.1, c.2.1, fetch c.2.1 c.2.2)), ∃ i, rank c.2.1 = some i := by
    intro c hc
    obtain ⟨c0, hc0, hg⟩ := List.mem_filterMap.mp hc
    have hnode : c0.2.1 ∈ m.urns ++ pyKeys (remote.map Prod.fst) := by
      rcases diff_keys hops c0 hc0 with h1 | h2
      · exact List.mem_append.mpr (Or.inr (mem_pyKeys.mpr h1))
      · exact List.mem_append.mpr (Or.inl (hcov _ h2))
    by_cases he : (fetch c0.2.1 c0.2.2).isEmpty itemTruthy = true
    · rw [if_pos he] at hg
      cases hg
    · rw [if_neg he] at hg
      obtain rfl := Option.some.inj hg
      exact htotal _ hnode
  obtain ⟨ys, hys⟩ := mapM_option_isSome
    (fun c : Action × String × Payload V I => rank c.2.1) _
    (fun c hc => by
      obtain ⟨i, hi⟩ := hchange c hc
      show (rank c.2.1).isSome = true
      rw [hi]
      rfl)
  simp only [_plan, hts, hops, hys]
  refine ⟨_, rfl, ?_⟩
  haveI hto : IsTotal (Action × String × Payload V I)
      (fun c d => (rank c.2.1).getD 0 ≤ (rank d.2.1).getD 0) :=
    ⟨fun a b => Nat.le_total _ _⟩
  haveI htr : IsTrans (Action × String × Payload V I)
      (fun c d => (rank c.2.1).getD 0 ≤ (rank d.2.1).getD 0) :=
    ⟨fun a b c h1 h2 => Nat.le_trans h1 h2⟩
  have hsorted := List.sorted_insertionSort
    (fun c d => (rank c.2.1).getD 0 ≤ (rank d.2.1).getD 0)
    (ops.filterMap (fun c =>
      if (fetch c.2.1 c.2.2).isEmpty itemTruthy = true then none
      else some (c.1, c.2.1, fetch c.2.1 c.2.2)))
  refine List.Pairwise.imp_of_mem ?_ hsorted
  intro a b ha hb hr i j hi hj
  rw [hi, hj] at hr
  simpa using hr

/-- Witness for C1 amended at a two-resource manifest with one edge and
one remote-only resource. -/
theorem C1_topological_order_and_sorted_plan_witness :
    ∃ rank, topological_sort [("urn:b", "urn:a")]
        (["urn:b", "urn:a"] ++ pyKeys (([("urn:c", Value.attrs [("f", 9)])]
            : List (String × Value Nat Nat)).map Prod.fst)) = some rank
      ∧ (∀ x ∈ ["urn:b", "urn:a"] ++ pyKeys (([("urn:c", Value.attrs [("f", 9)])]
            : List (String × Value Nat Nat)).map Prod.fst), ∃ i, rank x = some i)
      ∧ (∀ p ∈ [("urn:b", "urn:a")], ∀ i j,
          rank p.2 = some i → rank p.1 = some j → i < j)
      ∧ (∀ ops, diff [("urn:c", Value.attrs [("f", 9)])]
            ([("urn:b", Value.attrs [("f", 1)]), ("urn:a", Value.attrs [("g", 2)])]
              : List (String × Value Nat Nat)) = some ops →
          ∃ plan, _plan (fun i => i ≠ 0) (fun _ p => p)
              [("urn:c", Value.attrs [("f", 9)])]
              ⟨[("urn:b", Value.attrs [("f", 1)]), ("urn:a", Value.attrs [("g", 2)])],
               [("urn:b", "urn:a")], ["urn:b", "urn:a"]⟩ = some plan
            ∧ plan.Pairwise (fun c d => ∀ i j,
                rank c.2.1 = some i → rank d.2.1 = some j → i ≤ j)) :=
  C1_topological_order_and_sorted_plan (fun i => i ≠ 0) (fun _ p => p)
    [("urn:c", Value.attrs [("f", 9)])]
    ⟨[("urn:b", Value.attrs [("f", 1)]), ("urn:a", Value.attrs [("g", 2)])],
     [("urn:b", "urn:a")], ["urn:b", "urn:a"]⟩
    (by decide) (by decide)
    (wf_of_numbering _ (fun s => if s = "urn:a" then 1 else 0) (by decide))
    (by decide)

/-- C3 (status corrected): counterexample.  A manifest whose _refs edge
targets an identifier outside the node set (such as a ref to an implicit
resource absent from _urns) makes planning against a remote state equal
to its entries fail in the sequencer in-degree lookup (Python KeyError)
instead of returning an empty plan, even though the diff is empty. -/
theorem C3_counterexample :
    diff (V := Nat) (I := Nat)
        [("urn:a", Value.attrs [("f", 1)])] [("urn:a", Value.attrs [("f", 1)])] = some []
    ∧ _plan (V := Nat) (I := Nat) (fun i => i ≠ 0) (fun _ p => p)
        [("urn:a", Value.attrs [("f", 1)])]
        ⟨[("urn:a", Value.attrs [("f", 1)])], [("urn:a", "urn:imp")], ["urn:a"]⟩ = none := by
  refine ⟨by decide, by decide⟩

/-- C3 amended: diffing a manifest against a remote state equal to its
entries yields no diff operations, for every manifest; when additionally
every _refs endpoint lies among the manifest urns or entry keys, planning
against that unchanged remote state returns the empty plan. -/
theorem C3_unchanged_remote_empty_plan {V I : Type} [DecidableEq V] [DecidableEq I]
    (itemTruthy : I → Bool) (fetch : String → Payload V I → Payload V I)
    (m : Manifest V I)
    (h : ∀ p ∈ m.refs,
      (p.1 ∈ m.urns ∨ p.1 ∈ m.entries.map Prod.fst)
      ∧ (p.2 ∈ m.urns ∨ p.2 ∈ m.entries.map Prod.fst)) :
    diff m.entries m.entries = some []
    ∧ _plan itemTruthy fetch m.entries m = some [] := by
  refine ⟨diff_self m.entries, ?_⟩
  have hguard : ∀ p ∈ m.refs,
      p.1 ∈ pyKeys (m.urns ++ pyKeys (m.entries.map Prod.fst))
      ∧ p.2 ∈ pyKeys (m.urns ++ pyKeys (m.entries.map Prod.fst)) := by
    intro p hp
    obtain ⟨h1, h2⟩ := h p hp
    exact ⟨mem_pyKeys.mpr (List.mem_append.mpr (h1.imp id (fun hm => mem_pyKeys.mpr hm))),
      mem_pyKeys.mpr (List.mem_append.mpr (h2.imp id (fun hm => mem_pyKeys.mpr hm)))⟩
  simp only [_plan, topological_sort_eq_some hguard, diff_self m.entries]
  rfl

/-- Witness for C3 amended: a one-entry manifest with one well-covered
ref edge plans to the empty plan against a remote equal to its entries. -/
theorem C3_unchanged_remote_empty_plan_witness :
    diff (V := Nat) (I := Nat)
        [("urn:a", Value.attrs [("f", 1)])] [("urn:a", Value.attrs [("f", 1)])] = some []
    ∧ _plan (V := Nat) (I := Nat) (fun i => i ≠ 0) (fun _ p => p)
        [("urn:a", Value.attrs [("f", 1)])]
        ⟨[("urn:a", Value.attrs [("f", 1)])], [("urn:a", "urn:b")], ["urn:a", "urn:b"]⟩
      = some [] :=
  C3_unchanged_remote_empty_plan (fun i => i ≠ 0) (fun _ p => p)
    ⟨[("urn:a", Value.attrs [("f", 1)])], [("urn:a", "urn:b")], ["urn:a", "urn:b"]⟩
    (by decide)

/-- C9 (status confirmed): _plan drops an entire diff operation when the
fetchable-fields narrowing of its payload is empty: every operation in a
returned plan carries a nonempty narrowed payload, and a diff operation
whose narrowed payload is empty never appears in the plan at all. -/
theorem C9_empty_narrowed_operation_omitted {V I : Type} [DecidableEq V] [DecidableEq I]
    (itemTruthy : I → Bool) (fetch : String → Payload V I → Payload V I)
    (remote : List (String × Value V I)) (m : Manifest V I)
    (plan : List (Action × String × Payload V I))
    (h : _plan itemTruthy fetch remote m = some plan) :
    (∀ c ∈ plan, c.2.2.isEmpty itemTruthy = false)
    ∧ (∀ ops a u d, diff remote m.entries = some ops → (a, u, d) ∈ ops →
        (fetch u d).isEmpty itemTruthy = true → (a, u, fetch u d) ∉ plan) := by
  simp only [_plan] at h
  split at h
  · exact absurd h (by simp)
  · rename_i rank hrank
    split at h
    · exact absurd h (by simp)
    · rename_i ops0 hops0
      split at h
      · exact absurd h (by simp)
      · rename_i keys0 hkeys0
        obtain rfl := Option.some.inj h
        have hmemiff : ∀ c, c ∈ (List.insertionSort
            (fun c d => (rank c.2.1).getD 0 ≤ (rank d.2.1).getD 0)
            (ops0.filterMap (fun c =>
              if (fetch c.2.1 c.2.2).isEmpty itemTruthy = true then none
              else some (c.1, c.2.1, fetch c.2.1 c.2.2)))) ↔
            c ∈ ops0.filterMap (fun c =>
              if (fetch c.2.1 c.2.2).isEmpty itemTruthy = true then none
              else some (c.1, c.2.1, fetch c.2.1 c.2.2)) :=
          fun c => (List.perm_insertionSort _ _).mem_iff
        constructor
        · intro c hc
          obtain ⟨c0, _, hg⟩ := List.mem_filterMap.mp (hmemiff c |>.mp hc)
          by_cases he : (fetch c0.2.1 c0.2.2).isEmpty itemTruthy = true
          · rw [if_pos he] at hg
            cases hg
          · rw [if_neg he] at hg
            obtain rfl := Option.some.inj hg
            simpa using (Bool.not_eq_true _).mp he
        · intro ops a u d hops hmem hempty hplan
          obtain ⟨c0, _, hg⟩ := List.mem_filterMap.mp (hmemiff _ |>.mp hplan)
          by_cases he : (fetch c0.2.1 c0.2.2).isEmpty itemTruthy = true
          · rw [if_pos he] at hg
            cases hg
          · rw [if_neg he] at hg
            have e3 : fetch c0.2.1 c0.2.2 = fetch u d := congrArg (fun t => t.2.2) (Option.some.inj hg)
            have e2 : c0.2.1 = u := congrArg (fun t => t.2.1) (Option.some.inj hg)
            rw [e3] at he
            exact he hempty

/-- Witness for C9: a remove operation whose narrowing comes back as an
empty mapping is dropped, leaving the empty plan. -/
theorem C9_empty_narrowed_operation_omitted_witness :
    (∀ c ∈ ([] : List (Action × String × Payload Nat Nat)),
      c.2.2.isEmpty (fun i => i ≠ 0) = false)
    ∧ (∀ ops a u d, diff (V := Nat) (I := Nat)
          [("urn:a", Value.attrs [("f", 1)])] [] = some ops → (a, u, d) ∈ ops →
        ((fun (_ : String) (_ : Payload Nat Nat) =>
            (Payload.whole (Value.attrs []) : Payload Nat Nat)) u d).isEmpty
          (fun i => i ≠ 0) = true →
        (a, u, (fun (_ : String) (_ : Payload Nat Nat) =>
            (Payload.whole (Value.attrs []) : Payload Nat Nat)) u d)
          ∉ ([] : List (Action × String × Payload Nat Nat))) :=
  C9_empty_narrowed_operation_omitted (fun i => i ≠ 0)
    (fun _ _ => (Payload.whole (Value.attrs []) : Payload Nat Nat))
    [("urn:a", Value.attrs [("f", 1)])] ⟨[], [], []⟩ [] (by decide)

/-- Unfolding equation for _add on a resource with no references. -/
theorem _add_leaf (bp : StageState) (isAcc : Bool) (nm : String) (h : ¬(isAcc = true ∧ bp.account = "")) :
    _add bp (RRes.node isAcc nm []) =
      if isAcc ∧ bp.account = "" then
        Except.ok ⟨nm, bp.staged ++ [RRes.node isAcc nm []]⟩
      else if isAcc then Except.error "Account already set"
      else Except.ok ⟨bp.account, bp.staged ++ [RRes.node isAcc nm []]⟩ := by
  cases isAcc with
  | false => simp [_add, _addList]
  | true =>
    simp only [true_and] at h
    simp [_add, _addList, h]

/-- C2 (status code_bug): on the cyclic manifest with edges a to b and
b to a, topological_sort silently returns a truncated (here empty)
ranking with no rank for either node, instead of raising
CyclicDependencyError as the specification requires. -/
theorem C2_cycle_silent_truncation :
    (topological_sort [("a", "b"), ("b", "a")] ["a", "b"]).map
      (fun r => (r "a", r "b")) = some (none, none) := by
  rfl

/-- C5 (status corrected): counterexample to the claimed inequality.
ResourceName ABC compared with the quoted name ABC evaluates to true,
not false: the unquoted side upper-cases to ABC, which equals the quoted
literal ABC. -/
theorem C5_counterexample :
    ResourceName.eq (ResourceName.fromString "ABC")
      (ResourceName.fromString "\"ABC\"") = true := by
  decide

/-- C5 amended: ResourceName equality is quote-aware in that the
unquoted side is upper-cased before comparison against the quoted
literal: ABC equals quoted ABC, abc equals quoted ABC, and ABC differs
from quoted abc. -/
theorem C5_quote_aware_equality :
    ResourceName.eq (ResourceName.fromString "ABC")
        (ResourceName.fromString "\"ABC\"") = true
    ∧ ResourceName.eq (ResourceName.fromString "abc")
        (ResourceName.fromString "\"ABC\"") = true
    ∧ ResourceName.eq (ResourceName.fromString "ABC")
        (ResourceName.fromString "\"abc\"") = false := by
  refine ⟨by decide, by decide, by decide⟩

/-- C6 (status code_bug): evaluating destroy on a manifest whose first
entry is the database that its second entry depends on.  destroy issues
the delete calls in manifest insertion order, dropping the dependency
before its dependent, and then aborts on the reserved key _refs, which
does not parse as an identifier; it honors neither reverse-topological
order nor the identifier set. -/
theorem C6_destroy_ignores_dependency_order :
    destroy (V := Nat) (I := Nat)
        ⟨[("urn::A:database/DB", Value.attrs [("n", 1)]),
          ("urn::A:schema/SC", Value.attrs [("n", 2)])],
         [("urn::A:schema/SC", "urn::A:database/DB")],
         ["urn::A:database/DB", "urn::A:schema/SC"]⟩
      = (["urn::A:database/DB", "urn::A:schema/SC"], some "MalformedIdentifierError")
    ∧ ("urn::A:schema/SC", "urn::A:database/DB") ∈
        [("urn::A:schema/SC", "urn::A:database/DB")] := by
  refine ⟨by decide, List.mem_singleton.mpr rfl⟩

/-- C7 (status code_bug): evaluating scope resolution at the failing
input.  A blueprint constructed with no default database or schema
stores the empty string, never Python None, so a database-scoped or
schema-scoped resource with no declared ancestry is silently given the
empty-string scope instead of raising OrphanedResourceError. -/
theorem C7_orphaned_resource_not_rejected :
    _finalize_scope (Blueprint.init none none none none)
        ⟨some ScopeKind.database, none⟩
      = Except.ok ⟨some ScopeKind.database, some ""⟩
    ∧ _finalize_scope (Blueprint.init none none none none)
        ⟨some ScopeKind.schema, none⟩
      = Except.ok ⟨some ScopeKind.schema, some ""⟩ := by
  refine ⟨rfl, rfl⟩

/-- C8 (status corrected): counterexample to idempotent staging.  Adding
the same resource twice appends it to the staged list twice; the staged
sequence after the duplicate add differs from the staged sequence after
a single add. -/
theorem C8_counterexample :
    _add ⟨"", []⟩ (RRes.node false "res1" [])
        = Except.ok ⟨"", [RRes.node false "res1" []]⟩
    ∧ _add ⟨"", [RRes.node false "res1" []]⟩ (RRes.node false "res1" [])
        = Except.ok ⟨"", [RRes.node false "res1" [], RRes.node false "res1" []]⟩
    ∧ [RRes.node false "res1" [], RRes.node false "res1" []]
        ≠ [RRes.node false "res1" []] := by
  refine ⟨by simp [_add, _addList], by simp [_add, _addList], by simp⟩

/-- C8 amended: staging does not deduplicate.  For every staging state,
adding a dependency-free non-account resource appends it to the staged
list, so adding the same resource twice appends it twice rather than
being a no-op; duplicate staging is not an error for non-account
resources. -/
theorem C8_duplicate_add_appends_again (acct nm : String) (staged : List RRes) :
    (_add ⟨acct, staged⟩ (RRes.node false nm [])).bind
        (fun bp1 => _add bp1 (RRes.node false nm []))
      = Except.ok ⟨acct, staged ++ [RRes.node false nm [], RRes.node false nm []]⟩ := by
  simp [_add, _addList, Except.bind]

/-- C10 (status confirmed): for every resource type with no kind-specific
module-level update or drop handler, update_resource and drop_resource
raise TypeError because the getattr fallback is the handler name as a
string, which is then called; create_resource falls back to the callable
create__default and returns the default DDL. -/
theorem C10_lifecycle_string_fallback (rt fqn : String)
    (hu : getattrLifecycle ("update_" ++ rt) = none)
    (hd : getattrLifecycle ("drop_" ++ rt) = none)
    (hc : getattrLifecycle ("create_" ++ rt) = none) :
    update_resource rt fqn = Except.error "TypeError: str object is not callable"
    ∧ drop_resource rt fqn = Except.error "TypeError: str object is not callable"
    ∧ create_resource rt fqn = Except.ok (tidy_sql ["CREATE", rt, fqn]) := by
  unfold update_resource drop_resource create_resource
  rw [hu, hd, hc]
  exact ⟨rfl, rfl, rfl⟩

/-- Witness for C10 at the resource type role: the lifecycle module has
no update_role, drop_role or create_role handler, so update and drop
raise TypeError while create renders default DDL. -/
theorem C10_lifecycle_string_fallback_witness :
    update_resource "role" "ROLE1" = Except.error "TypeError: str object is not callable"
    ∧ drop_resource "role" "ROLE1" = Except.error "TypeError: str object is not callable"
    ∧ create_resource "role" "ROLE1" = Except.ok (tidy_sql ["CREATE", "role", "ROLE1"]) :=
  C10_lifecycle_string_fallback "role" "ROLE1" rfl rfl rfl

end Titan
